import Mathlib

/-!
# A verification of the `graph-data-structure` library

This file gives a shallow embedding of the directed-graph data structure
implemented in `src/index.js` (adjacency store, mutation API, depth-first
search, topological sort, Dijkstra shortest paths and serialization), and
proves the behavioural properties stated in the specification.

JavaScript objects used as dictionaries are modelled by association lists
`List (String × β)` whose lookup returns the first matching entry and whose
update replaces the first matching entry in place (appending a fresh entry
when the key is absent); iterating the keys of an object is modelled by
iterating the list, matching the insertion-order semantics of object keys.
JavaScript numbers are modelled by `ℚ`.  The sentinel `Infinity` used by the
shortest-path routine is modelled by `Option ℚ` with `none` standing for
`Infinity`, and a missing entry (JS `undefined`) by a failing lookup.
Unbounded loops (the DFS recursion, the Dijkstra main loop and the
predecessor walk) are written with an explicit fuel argument; the fuel
passed at the call sites is proved sufficient under the specification's
preconditions, and exhaustion models the non-termination the JS code
exhibits outside those preconditions.
-/

namespace GraphDS

/-- Association-list lookup: first entry with the given key (JS property read). -/
def alookup {β : Type} : List (String × β) → String → Option β
  | [], _ => none
  | kv :: rest, k => if kv.1 = k then some kv.2 else alookup rest k

/-- Association-list update: replace the first entry with the given key in
place, appending a fresh entry when the key is absent (JS property write). -/
def aset {β : Type} : List (String × β) → String → β → List (String × β)
  | [], k, b => [(k, b)]
  | kv :: rest, k, b => if kv.1 = k then (k, b) :: rest else kv :: aset rest k b

/-- Opaque edge payloads (JS objects); the default payload is the empty
record, modelled by the empty field list. -/
abbrev EData := List (String × String)

/-- The store of `src/index.js`: the adjacency lists (`edges`, keys are node
ids, values are adjacent node id arrays), the edge weights keyed by the
string encoding of the edge, and the edge payloads keyed likewise. -/
structure Graph where
  edges : List (String × List String)
  edgeWeights : List (String × ℚ)
  edgeData : List (String × EData)
deriving DecidableEq

/-- `adjacent(node)`: the adjacent node list, `[]` for unknown nodes
(`edges[node] || []`). -/
def adjacent (g : Graph) (node : String) : List String :=
  (alookup g.edges node).getD []

/-- `addNode(node)`: `edges[node] = adjacent(node)` — a no-op on the value
for an existing key, a fresh empty adjacency list otherwise. -/
def addNode (g : Graph) (node : String) : Graph :=
  { g with edges := aset g.edges node (adjacent g node) }

/-- `removeEdge(u, v)`: when `u` has an adjacency entry, filter every
occurrence of `v` out of it; edge weights and payloads are untouched. -/
def removeEdge (g : Graph) (u v : String) : Graph :=
  if (alookup g.edges u).isSome then
    { g with edges := aset g.edges u ((adjacent g u).filter (fun x => x ≠ v)) }
  else g

/-- `removeNode(node)`: remove every incoming edge (a filter on every
adjacency list), then delete the node's own entry. -/
def removeNode (g : Graph) (node : String) : Graph :=
  { g with
    edges := (g.edges.map (fun kv => (kv.1, kv.2.filter (fun x => x ≠ node)))).filter
      (fun kv => kv.1 ≠ node) }

/-- Appending a node to an insertion-ordered set (`nodeSet[u] = true`). -/
def insertNew (acc : List String) (x : String) : List String :=
  if x ∈ acc then acc else acc ++ [x]

/-- `nodes()`: the derived node set — every adjacency key followed by the
members of its adjacency list, first occurrences kept in insertion order. -/
def nodes (g : Graph) : List String :=
  g.edges.foldl (fun acc kv => (kv.1 :: kv.2).foldl insertNew acc) []

/-- `encodeEdge(u, v) = u + "|" + v`: the key of an edge in the weight store. -/
def encodeEdge (u v : String) : String := u ++ "|" ++ v

/-- `encodeDataEdge(u, v) = u + "||" + v`: the key of an edge in the payload
store. -/
def encodeDataEdge (u v : String) : String := u ++ "||" ++ v

/-- `setEdgeWeight(u, v, weight)`. -/
def setEdgeWeight (g : Graph) (u v : String) (weight : ℚ) : Graph :=
  { g with edgeWeights := aset g.edgeWeights (encodeEdge u v) weight }

/-- `getEdgeWeight(u, v)`: the stored weight, or `1` if none was set. -/
def getEdgeWeight (g : Graph) (u v : String) : ℚ :=
  (alookup g.edgeWeights (encodeEdge u v)).getD 1

/-- `setEdgeData(u, v, data)`. -/
def setEdgeData (g : Graph) (u v : String) (data : EData) : Graph :=
  { g with edgeData := aset g.edgeData (encodeDataEdge u v) data }

/-- `getEdgeData(u, v)`: the stored payload, or the empty record if none was
set. -/
def getEdgeData (g : Graph) (u v : String) : EData :=
  (alookup g.edgeData (encodeDataEdge u v)).getD []

/-- `addEdge(u, v, weight, data)`: add both nodes, push `v` onto `u`'s
adjacency list, and store weight and payload when they are supplied. -/
def addEdge (g : Graph) (u v : String) (weight : Option ℚ) (data : Option EData) : Graph :=
  let g1 := addNode g u
  let g2 := addNode g1 v
  let g3 : Graph := { g2 with edges := aset g2.edges u (adjacent g2 u ++ [v]) }
  let g4 := match weight with
    | some w => setEdgeWeight g3 u v w
    | none => g3
  match data with
  | some dt => setEdgeData g4 u v dt
  | none => g4

/-- `indegree(node)`: occurrences of `node` across all adjacency lists. -/
def indegree (g : Graph) (node : String) : Nat :=
  g.edges.foldl (fun deg kv => deg + kv.2.count node) 0

/-- `outdegree(node)`: the length of `node`'s adjacency entry, `0` if absent. -/
def outdegree (g : Graph) (node : String) : Nat :=
  match alookup g.edges node with
  | some l => l.length
  | none => 0

/-! ## Depth-first search and topological sort -/

/-- The local state of `depthFirstSearch`: the `visited` set (a list used
only through membership) and the accumulating result `nodeList`. -/
structure DFSState where
  visited : List String
  nodeList : List String
deriving DecidableEq

/-- `DFSVisit(node)`: if unvisited, mark visited, recurse into the adjacency
list, then append the node.  The recursion of the JS code is unbounded; it
is embedded with a fuel argument that the call sites make large enough. -/
def dfsVisit (g : Graph) : Nat → String → DFSState → DFSState
  | 0, _, s => s
  | fuel + 1, node, s =>
    if node ∈ s.visited then s
    else
      let s1 : DFSState := ⟨node :: s.visited, s.nodeList⟩
      let s2 := (adjacent g node).foldl (fun st v => dfsVisit g fuel v st) s1
      ⟨s2.visited, s2.nodeList ++ [node]⟩

/-- Fuel sufficient for every visit: the recursion depth is bounded by the
number of derived nodes, since every recursive step marks a fresh node. -/
def dfsFuel (g : Graph) : Nat := (nodes g).length + 1

/-- The source-node list actually traversed: `if (!sourceNodes) sourceNodes
= nodes()` — an omitted argument defaults to the derived node set. -/
def chosenSources (g : Graph) (sourceNodes : Option (List String)) : List String :=
  sourceNodes.getD (nodes g)

/-- `depthFirstSearch(sourceNodes, includeSourceNodes)`: a non-boolean
`includeSourceNodes` defaults to `true`.  With `includeSourceNodes` false,
every source node is first marked visited and the search then proceeds from
the adjacency lists of the sources. -/
def depthFirstSearch (g : Graph) (sourceNodes : Option (List String))
    (includeSourceNodes : Option Bool) : List String :=
  let src := chosenSources g sourceNodes
  let inc := includeSourceNodes.getD true
  if inc then
    (src.foldl (fun st v => dfsVisit g (dfsFuel g) v st) ⟨[], []⟩).nodeList
  else
    let s1 : DFSState := ⟨src, []⟩
    (src.foldl (fun st v =>
      (adjacent g v).foldl (fun st2 y => dfsVisit g (dfsFuel g) y st2) st) s1).nodeList

/-- `topologicalSort(sourceNodes, includeSourceNodes)`: the reversed
depth-first search result. -/
def topologicalSort (g : Graph) (sourceNodes : Option (List String))
    (includeSourceNodes : Option Bool) : List String :=
  (depthFirstSearch g sourceNodes includeSourceNodes).reverse

/-! ## Dijkstra shortest paths -/

/-- The tentative-distance map `d`: values are `none` for `Infinity` and
`some x` for a finite number; a failing lookup is JS `undefined`. -/
abbrev DMap := List (String × Option ℚ)

/-- The predecessor map `p`. -/
abbrev PMap := List (String × String)

/-- The two error conditions `shortestPath` throws, plus a marker for the
non-termination the JS `while` loops exhibit when the preconditions fail. -/
inductive SPErr
  | unknownNode (msg : String)
  | noPath
  | nonTermination
deriving DecidableEq

/-- The result of `shortestPath`: the node list with its `weight` field. -/
structure PathResult where
  nodeList : List String
  weight : ℚ
deriving DecidableEq

/-- JS `a > b` on distance values (`undefined` comparisons are false,
`Infinity` exceeds every finite number and not itself). -/
def jsGT : Option (Option ℚ) → Option (Option ℚ) → Bool
  | some none, some (some _) => true
  | some (some x), some (some y) => decide (y < x)
  | _, _ => false

/-- JS `a + w` on a distance value (`Infinity + w = Infinity`; adding to
`undefined` gives `NaN`, which every comparison treats as false, so it is
collapsed to the same failing value). -/
def jsAdd : Option (Option ℚ) → ℚ → Option (Option ℚ)
  | some none, _ => some none
  | some (some x), w => some (some (x + w))
  | none, _ => none

/-- `relax(u, v)`: improve `d[v]` through the edge `(u, v)` and record the
predecessor. -/
def relax (g : Graph) (d : DMap) (p : PMap) (u v : String) : DMap × PMap :=
  match jsAdd (alookup d u) (getEdgeWeight g u v) with
  | none => (d, p)
  | some cand =>
    if jsGT (alookup d v) (some cand) then (aset d v cand, aset p v u)
    else (d, p)

/-- `extractMin()`: linear scan of the queue for the node of least finite
tentative distance; when none is finite the queue is discarded. -/
def extractMin (d : DMap) (q : List String) : Option String × List String :=
  let best := q.foldl (fun (acc : Option ℚ × Option String) node =>
    match alookup d node, acc.1 with
    | some (some x), none => (some x, some node)
    | some (some x), some m => if x < m then (some x, some node) else acc
    | _, _ => acc) (none, none)
  match best.2 with
  | some minNode => (some minNode, q.erase minNode)
  | none => (none, [])

/-- The main Dijkstra loop: extract the minimum and relax its adjacency
list until the queue empties.  When `extractMin` finds no finite node the
queue is discarded and the loop ends; the relaxations the JS code would
attempt from the `null` extraction result are no-ops under the
non-negative-weight precondition and are elided.  One unit of fuel per
extracted node suffices, and the call site passes the queue length. -/
def dijkstraLoop (g : Graph) : Nat → DMap → PMap → List String → DMap × PMap
  | 0, d, p, _ => (d, p)
  | fuel + 1, d, p, q =>
    if q.isEmpty then (d, p)
    else
      match extractMin d q with
      | (none, _) => (d, p)
      | (some u, q') =>
        let dp := (adjacent g u).foldl (fun (dp : DMap × PMap) v => relax g dp.1 dp.2 u v) (d, p)
        dijkstraLoop g fuel dp.1 dp.2 q'

/-- `path()`: walk the predecessor links back from `destination`; the JS
code collects the nodes and then reverses, which is modelled by an
accumulator already in final order. The loop condition `while(p[node])`
tests the predecessor string for truthiness, so the walk stops not only
when `node` has no predecessor entry but also when its predecessor is the
empty string (which is falsy in JS). -/
def pathWalk (g : Graph) (p : PMap) (source : String) :
    Nat → String → List String → ℚ → Except SPErr PathResult
  | 0, _, _, _ => .error .nonTermination
  | fuel + 1, node, acc, wacc =>
    match alookup p node with
    | some u =>
      if u = "" then
        if node = source then .ok ⟨node :: acc, wacc⟩ else .error .noPath
      else
        pathWalk g p source fuel u (node :: acc) (wacc + getEdgeWeight g u node)
    | none =>
      if node = source then .ok ⟨node :: acc, wacc⟩
      else .error .noPath

/-- `shortestPath(source, destination)`: initialize the distances of every
derived node to `Infinity` (a key whose looked-up value is not `Infinity`
is a missing node and throws), set `d[source] = 0`, run the loop over the
queue of all nodes, and reconstruct the path from the predecessor links. -/
def shortestPath (g : Graph) (source destination : String) : Except SPErr PathResult :=
  let ns := nodes g
  let dInit : DMap := ns.map (fun n => (n, (none : Option ℚ)))
  if alookup dInit source ≠ some none then
    .error (.unknownNode "Source node is not in the graph")
  else if alookup dInit destination ≠ some none then
    .error (.unknownNode "Destination node is not in the graph")
  else
    let d0 := aset dInit source (some 0)
    let dp := dijkstraLoop g ns.length d0 [] ns
    pathWalk g dp.2 source (ns.length + 1) destination [] 0

/-! ## Serialization -/

/-- A serialized link `{source, target, weight, data}`; `weight` and `data`
are optional in the wire format (`serialize` always emits them). -/
structure SLink where
  source : String
  target : String
  weight : Option ℚ
  data : Option EData
deriving DecidableEq

/-- The serialized form `{nodes, links}` (the `{id}` wrappers of the node
records carry only the id). -/
structure Serialized where
  nodes : List String
  links : List SLink
deriving DecidableEq

/-- `serialize()`: enumerate the derived node set, and for each node in that
order every adjacency entry as a link annotated with the current weight and
payload. -/
def serialize (g : Graph) : Serialized :=
  let ns := nodes g
  { nodes := ns
    links := ns.foldl (fun acc source =>
      acc ++ (adjacent g source).map (fun target =>
        ⟨source, target, some (getEdgeWeight g source target),
          some (getEdgeData g source target)⟩)) [] }

/-- `deserialize(serialized)` run against an existing store: add every
listed node, then replay every link through `addEdge`. -/
def deserializeInto (g : Graph) (s : Serialized) : Graph :=
  let g1 := s.nodes.foldl (fun h n => addNode h n) g
  s.links.foldl (fun h l => addEdge h l.source l.target l.weight l.data) g1

/-- The store of a freshly constructed graph. -/
def emptyGraph : Graph := ⟨[], [], []⟩

/-- `Graph(serialized)`: hydrate a fresh store from a serialized form. -/
def deserialize (s : Serialized) : Graph := deserializeInto emptyGraph s

/-! ## Read-only calls with their effect on the store made explicit

Each wrapper returns the call's value together with the store after the
call, translated statement by statement from the JS function bodies: none
of these functions contains an assignment to `edges`, `edgeWeights` or
`edgeData` (their locals `visited`, `nodeList`, `d`, `p`, `q`,
`serialized` are discarded on return), so the resulting store is the
argument store. -/

/-- `nodes()` as a call on the store. -/
def nodesOp (g : Graph) : List String × Graph := (nodes g, g)

/-- `adjacent(node)` as a call on the store. -/
def adjacentOp (g : Graph) (node : String) : List String × Graph := (adjacent g node, g)

/-- `indegree(node)` as a call on the store. -/
def indegreeOp (g : Graph) (node : String) : Nat × Graph := (indegree g node, g)

/-- `outdegree(node)` as a call on the store. -/
def outdegreeOp (g : Graph) (node : String) : Nat × Graph := (outdegree g node, g)

/-- `depthFirstSearch(...)` as a call on the store. -/
def depthFirstSearchOp (g : Graph) (sourceNodes : Option (List String))
    (includeSourceNodes : Option Bool) : List String × Graph :=
  (depthFirstSearch g sourceNodes includeSourceNodes, g)

/-- `topologicalSort(...)` as a call on the store. -/
def topologicalSortOp (g : Graph) (sourceNodes : Option (List String))
    (includeSourceNodes : Option Bool) : List String × Graph :=
  (topologicalSort g sourceNodes includeSourceNodes, g)

/-- `serialize()` as a call on the store. -/
def serializeOp (g : Graph) : Serialized × Graph := (serialize g, g)

/-- `shortestPath(source, destination)` as a call on the store (the value is
the returned path or the thrown error). -/
def shortestPathOp (g : Graph) (source destination : String) :
    Except SPErr PathResult × Graph :=
  (shortestPath g source destination, g)

/-! ## Routes, reachability and the specification's side conditions -/

/-- A route in the graph: the list of traversed nodes from `a` to `c`
inclusive, each consecutive pair an edge of the adjacency store. -/
inductive Route (g : Graph) : String → List String → String → Prop
  | refl (a : String) : Route g a [a] a
  | step (a b c : String) (l : List String) :
      b ∈ adjacent g a → Route g b l c → Route g a (a :: l) c

/-- The accumulated weight of a node list: the sum of the weights of its
consecutive pairs, with the same default-weight-1 rule as `getEdgeWeight`. -/
def pathWeight (g : Graph) : List String → ℚ
  | a :: b :: rest => getEdgeWeight g a b + pathWeight g (b :: rest)
  | _ => 0

/-- `b` is reachable from `a` along edges of the adjacency store. -/
def Reaches (g : Graph) (a b : String) : Prop :=
  Relation.ReflTransGen (fun x y => y ∈ adjacent g x) a b

/-- Reachable from some member of the node list `S`. -/
def ReachesFrom (g : Graph) (S : List String) (x : String) : Prop :=
  ∃ s ∈ S, Reaches g s x

/-- The subgraph reachable from `S` is acyclic: no edge leaving a reachable
node closes a cycle. -/
def AcyclicFrom (g : Graph) (S : List String) : Prop :=
  ∀ x, ReachesFrom g S x → ∀ y ∈ adjacent g x, ¬ Reaches g y x

/-- Every edge weight reachable from `source` is non-negative. -/
def NonnegFrom (g : Graph) (source : String) : Prop :=
  ∀ u v, Reaches g source u → v ∈ adjacent g u → 0 ≤ getEdgeWeight g u v

/-- Every node appearing in an adjacency list has an adjacency entry of its
own — an invariant of every store built through the API, since `addEdge`
adds both endpoints. -/
def Closed (g : Graph) : Prop :=
  ∀ u v, v ∈ adjacent g u → (alookup g.edges v).isSome

/-- `a` occurs strictly before `b` in the list `l`. -/
def Precedes (l : List String) (a b : String) : Prop :=
  ∃ l1 l2, l = l1 ++ l2 ∧ a ∈ l1 ∧ b ∈ l2

/-! ## Concrete stores used to instantiate the theorems -/

/-- The specification's example graph: edges A→B, B→C, A→C, each of the
default weight 1. -/
def exampleGraph : Graph :=
  addEdge (addEdge (addEdge emptyGraph "A" "B" none none) "B" "C" none none) "A" "C" none none

/-- A disconnected store: edges A→B and C→D. -/
def twoComponentGraph : Graph :=
  addEdge (addEdge emptyGraph "A" "B" none none) "C" "D" none none

/-- A store whose only edge leaves the empty-string node id: the JS
predecessor walk stops on the falsy predecessor `""`. -/
def emptyIdGraph : Graph :=
  addEdge emptyGraph "" "B" none none

/-- The link `serialize` emits for the adjacency entry `t` of node `u`. -/
def serializeLink (g : Graph) (u t : String) : SLink :=
  ⟨u, t, some (getEdgeWeight g u t), some (getEdgeData g u t)⟩

/-- The last weight a replay of the links through `addEdge` leaves stored
under the key `k` (later links overwrite earlier ones). -/
def lastW : List SLink → String → Option ℚ
  | [], _ => none
  | l :: rest, k =>
    match lastW rest k with
    | some w => some w
    | none => if encodeEdge l.source l.target = k then l.weight else none

/-- The last payload a replay of the links through `addEdge` leaves stored
under the key `k`. -/
def lastD : List SLink → String → Option EData
  | [], _ => none
  | l :: rest, k =>
    match lastD rest k with
    | some dt => some dt
    | none => if encodeDataEdge l.source l.target = k then l.data else none

/-- How many derived nodes a DFS may still mark: the bound that shows the
fuel of `dfsFuel` suffices. -/
def unvisCount (g : Graph) (vis : List String) : Nat :=
  ((nodes g).filter (fun x => x ∉ vis)).length

/-- The state invariant of a depth-first search run: relative to the
pre-marked source nodes `B` (empty when `includeSourceNodes` is true) and
the chain `G` of in-progress ancestors, the visited set is exactly the
output so far together with `B` and `G`, the output has no duplicates and
never contains a pre-marked node, and every neighbor of an output node has
been visited. -/
structure DFSInv (g : Graph) (B G : List String) (s : DFSState) : Prop where
  vis_iff : ∀ x, x ∈ s.visited ↔ x ∈ B ∨ x ∈ s.nodeList ∨ x ∈ G
  nodup : s.nodeList.Nodup
  disjB : ∀ x ∈ s.nodeList, x ∉ B
  closed : ∀ x ∈ s.nodeList, ∀ y ∈ adjacent g x, y ∈ s.visited

/-- What one (sufficiently fuelled) burst of `DFSVisit` calls starting from
the nodes `starts` does to the state: it appends some freshly visited nodes
`ds`, grows the visited set by exactly `ds`, leaves every start visited,
and reaches every new node from some start. -/
structure DFSPost (g : Graph) (starts : List String) (s s' : DFSState)
    (ds : List String) : Prop where
  out_eq : s'.nodeList = s.nodeList ++ ds
  fresh : ∀ x ∈ ds, x ∉ s.visited
  vis_iff : ∀ x, x ∈ s'.visited ↔ x ∈ s.visited ∨ x ∈ ds
  entries_vis : ∀ a ∈ starts, a ∈ s'.visited
  reach : ∀ x ∈ ds, ∃ a ∈ starts, Reaches g a x

/-- The ordering invariant behind topological sorting: every edge leaving
an output node points at a pre-marked source or at a node output strictly
earlier. -/
def OrdInv (g : Graph) (B : List String) (out : List String) : Prop :=
  ∀ x ∈ out, ∀ y ∈ adjacent g x, y ∈ B ∨ Precedes out y x

/-- The loop invariant of the Dijkstra run, at the head of each iteration:
`q` is the unsettled queue, `S` the settled nodes in extraction order.
`d` maps every derived node (`d_dom`) to `Infinity` or to the weight of an
actual route from the source (`sound`); the predecessor links point from a
node to the settled neighbour whose relaxation produced its current
distance (`pred`), settled strictly earlier (`pred_order`); every finite
node other than the source has a predecessor (`no_orphan`); settled
distances are finite (`settled_fin`) and no larger than any finite queued
distance (`order`). -/
structure DijkBase (g : Graph) (source : String) (d : DMap) (p : PMap)
    (q S : List String) : Prop where
  q_sub : ∀ x ∈ q, x ∈ nodes g
  q_nodup : q.Nodup
  s_iff : ∀ x, x ∈ S ↔ x ∈ nodes g ∧ x ∉ q
  s_nodup : S.Nodup
  d_dom : ∀ v, (alookup d v).isSome ↔ v ∈ nodes g
  d_src : alookup d source = some (some 0)
  p_src : alookup p source = none
  sound : ∀ v x, alookup d v = some (some x) →
    ∃ l, Route g source l v ∧ pathWeight g l = x
  pred : ∀ v u, alookup p v = some u → u ∈ S ∧ v ∈ adjacent g u ∧
    ∃ x y, alookup d v = some (some x) ∧ alookup d u = some (some y) ∧
      x = y + getEdgeWeight g u v
  pred_order : ∀ v u, alookup p v = some u → v ∉ S ∨ S.indexOf u < S.indexOf v
  no_orphan : ∀ v x, alookup d v = some (some x) → v ≠ source → (alookup p v).isSome
  settled_fin : ∀ u ∈ S, ∃ y, alookup d u = some (some y)
  order : ∀ u ∈ S, ∀ z ∈ q, ∀ y x, alookup d u = some (some y) →
    alookup d z = some (some x) → y ≤ x

/-- Every edge leaving a settled node has been relaxed: the target's
distance is no worse than going through the settled node. -/
def DijkRelaxed (g : Graph) (d : DMap) (S : List String) : Prop :=
  ∀ u ∈ S, ∀ v ∈ adjacent g u, ∀ y, alookup d u = some (some y) →
    ∃ x, alookup d v = some (some x) ∧ x ≤ y + getEdgeWeight g u v

/-! ## Lemmas about the association-list primitives -/

@[simp] theorem alookup_nil {β : Type} (k : String) :
    alookup ([] : List (String × β)) k = none := rfl

@[simp] theorem alookup_cons {β : Type} (kv : String × β) (rest : List (String × β))
    (k : String) :
    alookup (kv :: rest) k = if kv.1 = k then some kv.2 else alookup rest k := rfl

theorem alookup_aset_self {β : Type} (l : List (String × β)) (k : String) (b : β) :
    alookup (aset l k b) k = some b := by
  induction l with
  | nil => simp [aset]
  | cons kv rest ih =>
    by_cases h : kv.1 = k
    · simp [aset, h]
    · simp [aset, h, ih]

theorem alookup_aset_ne {β : Type} (l : List (String × β)) (k : String) (b : β)
    (k' : String) (h : k' ≠ k) : alookup (aset l k b) k' = alookup l k' := by
  induction l with
  | nil => simp [aset, Ne.symm h]
  | cons kv rest ih =>
    by_cases hk : kv.1 = k
    · subst hk
      simp [aset, Ne.symm h]
    · simp only [aset, if_neg hk, alookup_cons, ih]

theorem alookup_aset_isSome {β : Type} (l : List (String × β)) (k : String) (b : β)
    (k' : String) :
    (alookup (aset l k b) k').isSome ↔ k' = k ∨ (alookup l k').isSome := by
  by_cases h : k' = k
  · subst h
    simp [alookup_aset_self]
  · simp [alookup_aset_ne l k b k' h, h]

theorem aset_map_fst {β : Type} (l : List (String × β)) (k : String) (b : β) :
    (aset l k b).map Prod.fst =
      if (alookup l k).isSome then l.map Prod.fst else l.map Prod.fst ++ [k] := by
  induction l with
  | nil => simp [aset]
  | cons kv rest ih =>
    by_cases h : kv.1 = k
    · simp [aset, h]
    · simp [aset, h, ih]
      split <;> simp

theorem alookup_mem {β : Type} (l : List (String × β)) (k : String) (b : β)
    (h : alookup l k = some b) : (k, b) ∈ l := by
  induction l with
  | nil => simp [alookup] at h
  | cons kv rest ih =>
    simp only [alookup_cons] at h
    split at h
    · rename_i he
      cases h
      subst he
      exact List.mem_cons_self _ _
    · exact List.mem_cons_of_mem _ (ih h)

theorem alookup_eq_none_iff {β : Type} (l : List (String × β)) (k : String) :
    alookup l k = none ↔ k ∉ l.map Prod.fst := by
  induction l with
  | nil => simp
  | cons kv rest ih =>
    by_cases h : kv.1 = k
    · simp [h]
    · simp [h, ih, Ne.symm h]

theorem alookup_isSome_iff {β : Type} (l : List (String × β)) (k : String) :
    (alookup l k).isSome ↔ k ∈ l.map Prod.fst := by
  constructor
  · intro h
    cases hl : alookup l k with
    | none => rw [hl] at h; simp at h
    | some b => exact List.mem_map_of_mem Prod.fst (alookup_mem l k b hl)
  · intro h
    cases hl : alookup l k with
    | none => exact absurd h ((alookup_eq_none_iff l k).mp hl)
    | some b => simp

theorem alookup_of_mem_of_nodupKeys {β : Type} (l : List (String × β))
    (h : (l.map Prod.fst).Nodup) (kv : String × β) (hm : kv ∈ l) :
    alookup l kv.1 = some kv.2 := by
  induction l with
  | nil => simp at hm
  | cons hd rest ih =>
    simp only [List.map_cons, List.nodup_cons] at h
    rcases List.mem_cons.mp hm with h1 | h1
    · subst h1
      simp
    · have hne : hd.1 ≠ kv.1 := by
        intro he
        exact h.1 (he ▸ List.mem_map_of_mem Prod.fst h1)
      simp [hne, ih h.2 h1]

/-! ## The derived node set -/

theorem mem_insertNew (acc : List String) (x y : String) :
    y ∈ insertNew acc x ↔ y ∈ acc ∨ y = x := by
  by_cases h : x ∈ acc
  · simp only [insertNew, if_pos h]
    exact ⟨Or.inl, fun hy => hy.elim id (fun he => he ▸ h)⟩
  · simp [insertNew, if_neg h]

theorem insertNew_nodup (acc : List String) (x : String) (h : acc.Nodup) :
    (insertNew acc x).Nodup := by
  by_cases hx : x ∈ acc
  · simpa [insertNew, if_pos hx] using h
  · simp [insertNew, if_neg hx, List.nodup_append, h, hx]

theorem foldl_insertNew_mem (l : List String) :
    ∀ acc y, y ∈ l.foldl insertNew acc ↔ y ∈ acc ∨ y ∈ l := by
  induction l with
  | nil => simp
  | cons a l ih =>
    intro acc y
    simp only [List.foldl_cons, ih, mem_insertNew, List.mem_cons]
    tauto

theorem foldl_insertNew_nodup (l : List String) :
    ∀ acc, acc.Nodup → (l.foldl insertNew acc).Nodup := by
  induction l with
  | nil => exact fun acc h => h
  | cons a l ih => exact fun acc h => ih _ (insertNew_nodup acc a h)

theorem nodes_aux_mem (es : List (String × List String)) :
    ∀ acc y, y ∈ es.foldl (fun acc kv => (kv.1 :: kv.2).foldl insertNew acc) acc ↔
      y ∈ acc ∨ ∃ kv ∈ es, y = kv.1 ∨ y ∈ kv.2 := by
  induction es with
  | nil => simp
  | cons kv es ih =>
    intro acc y
    rw [List.foldl_cons, ih, foldl_insertNew_mem]
    simp only [List.mem_cons]
    constructor
    · rintro ((h | (h | h)) | ⟨kv', hkv', hy⟩)
      · exact Or.inl h
      · exact Or.inr ⟨kv, Or.inl rfl, Or.inl h⟩
      · exact Or.inr ⟨kv, Or.inl rfl, Or.inr h⟩
      · exact Or.inr ⟨kv', Or.inr hkv', hy⟩
    · rintro (h | ⟨kv', (rfl | hkv'), hy⟩)
      · exact Or.inl (Or.inl h)
      · rcases hy with h | h
        · exact Or.inl (Or.inr (Or.inl h))
        · exact Or.inl (Or.inr (Or.inr h))
      · exact Or.inr ⟨kv', hkv', hy⟩

theorem mem_nodes (g : Graph) (y : String) :
    y ∈ nodes g ↔ ∃ kv ∈ g.edges, y = kv.1 ∨ y ∈ kv.2 := by
  simpa [nodes] using nodes_aux_mem g.edges [] y

theorem nodes_nodup (g : Graph) : (nodes g).Nodup := by
  unfold nodes
  generalize g.edges = es
  have : ([] : List String).Nodup := List.nodup_nil
  generalize ([] : List String) = acc at this ⊢
  induction es generalizing acc with
  | nil => exact this
  | cons kv es ih => exact ih _ (foldl_insertNew_nodup _ _ this)

theorem key_mem_nodes (g : Graph) (u : String) (h : (alookup g.edges u).isSome) :
    u ∈ nodes g := by
  rw [alookup_isSome_iff] at h
  rcases List.mem_map.mp h with ⟨kv, hkv, he⟩
  exact (mem_nodes g u).mpr ⟨kv, hkv, Or.inl he.symm⟩

theorem adjacent_mem_nodes (g : Graph) (u v : String) (h : v ∈ adjacent g u) :
    v ∈ nodes g := by
  unfold adjacent at h
  cases hl : alookup g.edges u with
  | none => simp [hl] at h
  | some l =>
    rw [hl] at h
    exact (mem_nodes g v).mpr ⟨(u, l), alookup_mem _ _ _ hl, Or.inr h⟩

theorem adjacent_key_isSome (g : Graph) (u : String) (h : adjacent g u ≠ []) :
    (alookup g.edges u).isSome := by
  unfold adjacent at h
  cases hl : alookup g.edges u with
  | none => simp [hl] at h
  | some l => rfl

theorem adjacent_source_mem_nodes (g : Graph) (u v : String) (h : v ∈ adjacent g u) :
    u ∈ nodes g :=
  key_mem_nodes g u (adjacent_key_isSome g u (by intro he; rw [he] at h; exact absurd h (by simp)))

/-! ## How the mutators act on the adjacency store -/

theorem adjacent_addNode (g : Graph) (n u : String) :
    adjacent (addNode g n) u = adjacent g u := by
  by_cases h : u = n
  · subst h
    simp [adjacent, addNode, alookup_aset_self]
  · simp [adjacent, addNode, alookup_aset_ne _ _ _ _ h]

theorem alookup_addNode_isSome (g : Graph) (n x : String) :
    (alookup (addNode g n).edges x).isSome ↔ x = n ∨ (alookup g.edges x).isSome := by
  simp [addNode, alookup_aset_isSome]

theorem addEdge_edges (g : Graph) (u v : String) (w : Option ℚ) (dt : Option EData) :
    (addEdge g u v w dt).edges =
      aset (addNode (addNode g u) v).edges u (adjacent (addNode (addNode g u) v) u ++ [v]) := by
  cases w <;> cases dt <;> rfl

theorem adjacent_addEdge (g : Graph) (u v : String) (w : Option ℚ) (dt : Option EData)
    (x : String) :
    adjacent (addEdge g u v w dt) x =
      if x = u then adjacent g u ++ [v] else adjacent g x := by
  have h2 : ∀ y, adjacent (addNode (addNode g u) v) y = adjacent g y := fun y => by
    rw [adjacent_addNode, adjacent_addNode]
  have he : (addEdge g u v w dt).edges =
      aset (addNode (addNode g u) v).edges u (adjacent g u ++ [v]) := by
    rw [addEdge_edges, h2]
  by_cases h : x = u
  · subst h
    rw [show adjacent (addEdge g x v w dt) x =
        (alookup (addEdge g x v w dt).edges x).getD [] from rfl,
      he, alookup_aset_self, if_pos rfl]
    rfl
  · rw [show adjacent (addEdge g u v w dt) x =
        (alookup (addEdge g u v w dt).edges x).getD [] from rfl,
      he, alookup_aset_ne _ _ _ _ h, if_neg h]
    exact h2 x

theorem alookup_addEdge_isSome (g : Graph) (u v : String) (w : Option ℚ) (dt : Option EData)
    (x : String) :
    (alookup (addEdge g u v w dt).edges x).isSome ↔
      x = u ∨ x = v ∨ (alookup g.edges x).isSome := by
  rw [addEdge_edges, alookup_aset_isSome]
  simp [addNode, alookup_aset_isSome]
  tauto

theorem adjacent_removeEdge (g : Graph) (u v x : String) :
    adjacent (removeEdge g u v) x =
      if x = u then (adjacent g u).filter (fun y => y ≠ v) else adjacent g x := by
  unfold removeEdge
  split
  · by_cases h : x = u
    · subst h
      simp [adjacent, alookup_aset_self]
    · simp [adjacent, alookup_aset_ne _ _ _ _ h, h]
  · rename_i hns
    by_cases h : x = u
    · subst h
      have : alookup g.edges x = none := by
        cases hl : alookup g.edges x
        · rfl
        · rw [hl] at hns; simp at hns
      simp [adjacent, this]
    · simp [h]

theorem alookup_removeEdge_isSome (g : Graph) (u v x : String) :
    (alookup (removeEdge g u v).edges x).isSome ↔ (alookup g.edges x).isSome := by
  unfold removeEdge
  split
  · rename_i hs
    rw [alookup_aset_isSome]
    constructor
    · rintro (rfl | h)
      · exact hs
      · exact h
    · exact Or.inr
  · exact Iff.rfl

theorem alookup_removeNode_self (g : Graph) (node : String) :
    alookup (removeNode g node).edges node = none := by
  unfold removeNode
  simp only
  induction g.edges with
  | nil => rfl
  | cons kv rest ih =>
    by_cases h : kv.1 = node
    · simpa [List.filter_cons, h] using ih
    · simpa [List.filter_cons, h] using ih

theorem alookup_removeNode_ne (g : Graph) (node u : String) (h : u ≠ node) :
    alookup (removeNode g node).edges u =
      (alookup g.edges u).map (fun l => l.filter (fun x => x ≠ node)) := by
  unfold removeNode
  simp only
  induction g.edges with
  | nil => rfl
  | cons kv rest ih =>
    by_cases hk : kv.1 = node
    · have hku : ¬ kv.1 = u := fun he => h (by rw [← he, hk])
      simpa [List.filter_cons, hk, hku, Ne.symm h] using ih
    · by_cases hu : kv.1 = u
      · simp [List.filter_cons, hk, hu, h]
      · simpa [List.filter_cons, hk, hu] using ih

theorem adjacent_removeNode (g : Graph) (node u : String) :
    adjacent (removeNode g node) u =
      if u = node then [] else (adjacent g u).filter (fun x => x ≠ node) := by
  by_cases h : u = node
  · subst h
    simp [adjacent, alookup_removeNode_self]
  · simp only [adjacent]
    rw [alookup_removeNode_ne g node u h, if_neg h]
    cases alookup g.edges u with
    | none => rfl
    | some l => rfl

/-! ## Well-formedness: stores built through the API -/

/-- The two structural invariants every JS-reachable store enjoys: object
keys are unique, and every node referenced in an adjacency list has an
entry of its own (`addEdge` adds both endpoints). -/
def Wf (g : Graph) : Prop := (g.edges.map Prod.fst).Nodup ∧ Closed g

theorem wf_emptyGraph : Wf emptyGraph := by
  constructor
  · exact List.nodup_nil
  · intro u v h
    simp [adjacent, emptyGraph, alookup] at h

theorem wf_addNode (g : Graph) (n : String) (h : Wf g) : Wf (addNode g n) := by
  constructor
  · rw [addNode, aset_map_fst]
    split
    · exact h.1
    · rename_i hns
      have : n ∉ g.edges.map Prod.fst := by
        rw [← alookup_eq_none_iff]
        cases hl : alookup g.edges n
        · rfl
        · rw [hl] at hns; simp at hns
      simp [List.nodup_append, h.1, this]
  · intro u v hv
    rw [adjacent_addNode] at hv
    rw [show (addNode g n).edges = aset g.edges n (adjacent g n) from rfl,
      alookup_aset_isSome]
    exact Or.inr (h.2 u v hv)

theorem wf_setEdgeWeight (g : Graph) (u v : String) (w : ℚ) (h : Wf g) :
    Wf (setEdgeWeight g u v w) := h

theorem wf_setEdgeData (g : Graph) (u v : String) (dt : EData) (h : Wf g) :
    Wf (setEdgeData g u v dt) := h

theorem wf_addEdge (g : Graph) (u v : String) (w : Option ℚ) (dt : Option EData)
    (h : Wf g) : Wf (addEdge g u v w dt) := by
  have h2 : Wf (addNode (addNode g u) v) := wf_addNode _ _ (wf_addNode _ _ h)
  constructor
  · rw [addEdge_edges, aset_map_fst]
    have hu : (alookup (addNode (addNode g u) v).edges u).isSome := by
      rw [alookup_addNode_isSome, alookup_addNode_isSome]
      tauto
    rw [if_pos hu]
    exact h2.1
  · intro x y hy
    rw [adjacent_addEdge] at hy
    rw [alookup_addEdge_isSome]
    split at hy
    · rcases List.mem_append.mp hy with h1 | h1
      · exact Or.inr (Or.inr (h.2 u y h1))
      · simp at h1
        exact Or.inr (Or.inl h1)
    · exact Or.inr (Or.inr (h.2 x y hy))

theorem wf_removeEdge (g : Graph) (u v : String) (h : Wf g) : Wf (removeEdge g u v) := by
  constructor
  · unfold removeEdge
    split
    · rw [show ∀ gg : Graph, ∀ e, ({ gg with edges := e } : Graph).edges = e from fun _ _ => rfl,
        aset_map_fst]
      split
      · exact h.1
      · rename_i h1 h2
        exact absurd h1 (by simpa using h2)
    · exact h.1
  · intro x y hy
    rw [adjacent_removeEdge] at hy
    rw [alookup_removeEdge_isSome]
    split at hy
    · exact h.2 u y (List.mem_of_mem_filter hy)
    · exact h.2 x y hy

theorem wf_removeNode (g : Graph) (n : String) (h : Wf g) : Wf (removeNode g n) := by
  constructor
  · have h1 : List.Sublist
        ((g.edges.map (fun kv => (kv.1, kv.2.filter (fun x => x ≠ n)))).filter
          (fun kv => kv.1 ≠ n))
        (g.edges.map (fun kv => (kv.1, kv.2.filter (fun x => x ≠ n)))) :=
      List.filter_sublist _
    have h2 := h1.map Prod.fst
    rw [List.map_map] at h2
    have h3 : g.edges.map (Prod.fst ∘ fun kv : String × List String =>
        (kv.1, kv.2.filter (fun x => x ≠ n))) = g.edges.map Prod.fst := rfl
    rw [h3] at h2
    exact h.1.sublist h2
  · intro x y hy
    rw [adjacent_removeNode] at hy
    split at hy
    · simp at hy
    · have hyg := List.mem_of_mem_filter hy
      have hyn : y ≠ n := by
        have := List.of_mem_filter hy
        simpa using this
      rw [alookup_removeNode_ne g n y hyn]
      have := h.2 x y hyg
      cases hl : alookup g.edges y
      · rw [hl] at this; simp at this
      · simp

theorem wf_foldl_addNode (ns : List String) :
    ∀ g : Graph, Wf g → Wf (ns.foldl (fun h n => addNode h n) g) := by
  induction ns with
  | nil => exact fun g h => h
  | cons n ns ih => exact fun g h => ih _ (wf_addNode g n h)

theorem wf_foldl_addEdge (ls : List SLink) :
    ∀ g : Graph, Wf g →
      Wf (ls.foldl (fun h l => addEdge h l.source l.target l.weight l.data) g) := by
  induction ls with
  | nil => exact fun g h => h
  | cons l ls ih => exact fun g h => ih _ (wf_addEdge _ _ _ _ _ h)

theorem wf_deserializeInto (g : Graph) (s : Serialized) (h : Wf g) :
    Wf (deserializeInto g s) :=
  wf_foldl_addEdge s.links _ (wf_foldl_addNode s.nodes g h)

theorem wf_deserialize (s : Serialized) : Wf (deserialize s) :=
  wf_deserializeInto emptyGraph s wf_emptyGraph

theorem wf_exampleGraph : Wf exampleGraph :=
  wf_addEdge _ _ _ _ _ (wf_addEdge _ _ _ _ _ (wf_addEdge _ _ _ _ _ wf_emptyGraph))

theorem wf_twoComponentGraph : Wf twoComponentGraph :=
  wf_addEdge _ _ _ _ _ (wf_addEdge _ _ _ _ _ wf_emptyGraph)

/-! ## Totality and defaults of the non-throwing operations (claim C9) -/

theorem indegree_aux (es : List (String × List String)) (node : String) :
    ∀ acc : Nat, (∀ kv ∈ es, node ∉ kv.2) →
      es.foldl (fun deg kv => deg + kv.2.count node) acc = acc := by
  induction es with
  | nil => intro acc _; rfl
  | cons kv es ih =>
    intro acc h
    rw [List.foldl_cons, List.count_eq_zero.mpr (h kv (List.mem_cons_self _ _))]
    have := ih acc (fun kv' hkv' => h kv' (List.mem_cons_of_mem _ hkv'))
    simpa using this

/-- C9: every operation other than `shortestPath` is a total function of the
store (they are all plain `def`s returning values, never an error), and
queries about unknown data degrade to defaults: a node id without an
adjacency entry has an empty adjacency list, outdegree 0 and — in any store
reachable through the API — indegree 0, while an unset ordered pair has
weight 1 and the empty payload record. -/
theorem total_ops_defaults (g : Graph) (node : String) (hwf : Wf g)
    (hn : alookup g.edges node = none) :
    adjacent g node = [] ∧ outdegree g node = 0 ∧ indegree g node = 0 ∧
    (∀ u v, alookup g.edgeWeights (encodeEdge u v) = none → getEdgeWeight g u v = 1) ∧
    (∀ u v, alookup g.edgeData (encodeDataEdge u v) = none → getEdgeData g u v = []) := by
  refine ⟨by simp [adjacent, hn], by simp [outdegree, hn], ?_, ?_, ?_⟩
  · have hno : ∀ kv ∈ g.edges, node ∉ kv.2 := by
      intro kv hkv hmem
      have hl := alookup_of_mem_of_nodupKeys g.edges hwf.1 kv hkv
      have hadj : node ∈ adjacent g kv.1 := by simp [adjacent, hl, hmem]
      have := hwf.2 kv.1 node hadj
      rw [hn] at this
      simp at this
    exact indegree_aux g.edges node 0 hno
  · intro u v h
    simp [getEdgeWeight, h]
  · intro u v h
    simp [getEdgeData, h]

theorem total_ops_defaults_witness :
    alookup exampleGraph.edges "Z" = none ∧
    adjacent exampleGraph "Z" = [] ∧ outdegree exampleGraph "Z" = 0 ∧
    indegree exampleGraph "Z" = 0 ∧ getEdgeWeight exampleGraph "Z" "A" = 1 := by
  have h := total_ops_defaults exampleGraph "Z" wf_exampleGraph rfl
  exact ⟨rfl, h.1, h.2.1, h.2.2.1, h.2.2.2.1 "Z" "A" rfl⟩

/-! ## Edge metadata independence (claim C6) -/

theorem removeEdge_edgeWeights (g : Graph) (u v : String) :
    (removeEdge g u v).edgeWeights = g.edgeWeights := by
  unfold removeEdge
  split <;> rfl

theorem removeEdge_edgeData (g : Graph) (u v : String) :
    (removeEdge g u v).edgeData = g.edgeData := by
  unfold removeEdge
  split <;> rfl

theorem addEdge_no_args_edgeWeights (g : Graph) (u v : String) :
    (addEdge g u v none none).edgeWeights = g.edgeWeights := rfl

theorem addEdge_no_args_edgeData (g : Graph) (u v : String) :
    (addEdge g u v none none).edgeData = g.edgeData := rfl

/-- C6: removing an edge leaves its stored weight and payload intact, and a
subsequent `addEdge` without explicit weight/data inherits them: after
`removeEdge(u, v)`, and equally after re-adding the pair with no arguments,
`getEdgeWeight(u, v)` and `getEdgeData(u, v)` still return the previously
set weight and payload. -/
theorem removeEdge_keeps_metadata (g : Graph) (u v : String) (w : ℚ) (dt : EData)
    (hw : alookup g.edgeWeights (encodeEdge u v) = some w)
    (hd : alookup g.edgeData (encodeDataEdge u v) = some dt) :
    getEdgeWeight (removeEdge g u v) u v = w ∧
    getEdgeData (removeEdge g u v) u v = dt ∧
    getEdgeWeight (addEdge (removeEdge g u v) u v none none) u v = w ∧
    getEdgeData (addEdge (removeEdge g u v) u v none none) u v = dt := by
  refine ⟨?_, ?_, ?_, ?_⟩ <;>
    simp [getEdgeWeight, getEdgeData, addEdge_no_args_edgeWeights, addEdge_no_args_edgeData,
      removeEdge_edgeWeights, removeEdge_edgeData, hw, hd]

theorem removeEdge_keeps_metadata_witness :
    alookup (setEdgeWeight (setEdgeData emptyGraph "A" "B" [("k", "x")]) "A" "B" 7).edgeWeights
        (encodeEdge "A" "B") = some 7 ∧
    getEdgeWeight
      (removeEdge (setEdgeWeight (setEdgeData emptyGraph "A" "B" [("k", "x")]) "A" "B" 7)
        "A" "B") "A" "B" = 7 := by
  constructor
  · rfl
  · exact (removeEdge_keeps_metadata
      (setEdgeWeight (setEdgeData emptyGraph "A" "B" [("k", "x")]) "A" "B" 7)
      "A" "B" 7 [("k", "x")] rfl rfl).1

/-! ## Edge keys are string encodings (claim C7) -/

/-- C7 as stated is false: edge weights are keyed by the string
`u + "|" + v`, so two distinct ordered pairs of identifiers can collide.
Setting the weight of `("a|b", "c")` changes the observed weight of the
distinct pair `("a", "b|c")`. -/
theorem setEdgeWeight_distinct_pair_collision :
    (("a|b", "c") : String × String) ≠ ("a", "b|c") ∧
    getEdgeWeight (setEdgeWeight emptyGraph "a|b" "c" 5) "a" "b|c" = 5 ∧
    getEdgeWeight emptyGraph "a" "b|c" = 1 := by
  refine ⟨by decide, rfl, rfl⟩

/-- C7, amended: the weight and payload stores are keyed by the encoded
strings `u + "|" + v` and `u + "||" + v`; writes to one ordered pair leave
every pair with a different encoding unchanged (for pairs of identifiers
not containing `"|"` this covers all distinct pairs). -/
theorem setEdge_frame_encoded (g : Graph) (u v u' v' : String) (w : ℚ) (dt : EData)
    (hw : encodeEdge u v ≠ encodeEdge u' v')
    (hd : encodeDataEdge u v ≠ encodeDataEdge u' v') :
    getEdgeWeight (setEdgeWeight g u v w) u' v' = getEdgeWeight g u' v' ∧
    getEdgeData (setEdgeData g u v dt) u' v' = getEdgeData g u' v' := by
  constructor
  · simp [getEdgeWeight, setEdgeWeight, alookup_aset_ne _ _ _ _ (Ne.symm hw)]
  · simp [getEdgeData, setEdgeData, alookup_aset_ne _ _ _ _ (Ne.symm hd)]

theorem setEdge_frame_encoded_witness :
    encodeEdge "A" "B" ≠ encodeEdge "A" "C" ∧
    getEdgeWeight (setEdgeWeight emptyGraph "A" "B" 5) "A" "C" = getEdgeWeight emptyGraph "A" "C" := by
  refine ⟨by decide, ?_⟩
  exact (setEdge_frame_encoded emptyGraph "A" "B" "A" "C" 5 [] (by decide) (by decide)).1

/-! ## The two error branches of `shortestPath` (claim C4) -/

theorem alookup_initD (ns : List String) (x : String) :
    alookup (ns.map (fun n => (n, (none : Option ℚ)))) x =
      if x ∈ ns then some none else none := by
  induction ns with
  | nil => simp
  | cons a ns ih =>
    by_cases h : a = x
    · simp [h]
    · simp [h, ih, Ne.symm h]

theorem pathWalk_eq_some (g : Graph) (p : PMap) (source : String) (fuel : Nat)
    (node u : String) (acc : List String) (wacc : ℚ) (hl : alookup p node = some u) :
    pathWalk g p source (fuel + 1) node acc wacc =
      if u = "" then
        if node = source then .ok ⟨node :: acc, wacc⟩ else .error .noPath
      else
        pathWalk g p source fuel u (node :: acc) (wacc + getEdgeWeight g u node) := by
  rw [pathWalk, hl]

theorem pathWalk_eq_none (g : Graph) (p : PMap) (source : String) (fuel : Nat)
    (node : String) (acc : List String) (wacc : ℚ) (hl : alookup p node = none) :
    pathWalk g p source (fuel + 1) node acc wacc =
      if node = source then .ok ⟨node :: acc, wacc⟩ else .error .noPath := by
  rw [pathWalk, hl]

theorem pathWalk_no_unknown (g : Graph) (p : PMap) (src : String) :
    ∀ fuel node acc wacc m,
      pathWalk g p src fuel node acc wacc ≠ Except.error (SPErr.unknownNode m) := by
  intro fuel
  induction fuel with
  | zero => intro node acc wacc m h; simp [pathWalk] at h
  | succ fuel ih =>
    intro node acc wacc m h
    cases hl : alookup p node with
    | some u =>
      rw [pathWalk_eq_some g p src fuel node u acc wacc hl] at h
      by_cases hu : u = ""
      · rw [if_pos hu] at h
        by_cases hn : node = src
        · rw [if_pos hn] at h
          simp at h
        · rw [if_neg hn] at h
          simp at h
      · rw [if_neg hu] at h
        exact ih u (node :: acc) (wacc + getEdgeWeight g u node) m h
    | none =>
      rw [pathWalk_eq_none g p src fuel node acc wacc hl] at h
      by_cases hn : node = src
      · rw [if_pos hn] at h
        simp at h
      · rw [if_neg hn] at h
        simp at h

theorem shortestPath_eq_err_source (g : Graph) (s t : String) (hs : s ∉ nodes g) :
    shortestPath g s t = .error (.unknownNode "Source node is not in the graph") := by
  unfold shortestPath
  simp only []
  split
  · rfl
  · rename_i h
    rw [alookup_initD, if_neg hs] at h
    simp at h

theorem shortestPath_eq_err_dest (g : Graph) (s t : String) (hs : s ∈ nodes g)
    (ht : t ∉ nodes g) :
    shortestPath g s t = .error (.unknownNode "Destination node is not in the graph") := by
  unfold shortestPath
  simp only []
  split
  · rename_i h
    rw [alookup_initD, if_pos hs] at h
    exact absurd rfl h
  · split
    · rfl
    · rename_i h
      rw [alookup_initD, if_neg ht] at h
      simp at h

theorem shortestPath_eq_of_mem (g : Graph) (s t : String) (hs : s ∈ nodes g)
    (ht : t ∈ nodes g) :
    shortestPath g s t =
      (let ns := nodes g
       let d0 := aset (ns.map (fun n => (n, (none : Option ℚ)))) s (some 0)
       let dp := dijkstraLoop g ns.length d0 [] ns
       pathWalk g dp.2 s (ns.length + 1) t [] 0) := by
  unfold shortestPath
  simp only []
  split
  · rename_i h
    rw [alookup_initD, if_pos hs] at h
    exact absurd rfl h
  · split
    · rename_i h
      rw [alookup_initD, if_pos ht] at h
      exact absurd rfl h
    · rfl

/-- C4: `shortestPath` throws the unknown-node error exactly when `source`
or `destination` is missing from the derived node set; whenever both are
members (in particular when they coincide) this error is never thrown. -/
theorem shortestPath_unknown_iff (g : Graph) (s t : String) :
    (∃ m, shortestPath g s t = .error (.unknownNode m)) ↔ s ∉ nodes g ∨ t ∉ nodes g := by
  by_cases hs : s ∈ nodes g
  · by_cases ht : t ∈ nodes g
    · rw [shortestPath_eq_of_mem g s t hs ht]
      constructor
      · rintro ⟨m, hm⟩
        exact absurd hm (pathWalk_no_unknown g _ s _ t [] 0 m)
      · rintro (h | h)
        · exact absurd hs h
        · exact absurd ht h
    · exact ⟨fun _ => Or.inr ht, fun _ => ⟨_, shortestPath_eq_err_dest g s t hs ht⟩⟩
  · exact ⟨fun _ => Or.inl hs, fun _ => ⟨_, shortestPath_eq_err_source g s t hs⟩⟩

/-! ## Read-only operations leave the store unchanged (claim C10) -/

/-- C10: the read-only operations — `nodes`, `adjacent`, `indegree`,
`outdegree`, `depthFirstSearch`, `topologicalSort`, `serialize` and
`shortestPath` (whether it returns a path or throws) — leave the adjacency,
weight and payload stores exactly as they were. -/
theorem read_ops_preserve_store (g : Graph) (node source destination : String)
    (sourceNodes : Option (List String)) (includeSourceNodes : Option Bool) :
    (nodesOp g).2 = g ∧
    (adjacentOp g node).2 = g ∧
    (indegreeOp g node).2 = g ∧
    (outdegreeOp g node).2 = g ∧
    (depthFirstSearchOp g sourceNodes includeSourceNodes).2 = g ∧
    (topologicalSortOp g sourceNodes includeSourceNodes).2 = g ∧
    (serializeOp g).2 = g ∧
    (shortestPathOp g source destination).2 = g :=
  ⟨rfl, rfl, rfl, rfl, rfl, rfl, rfl, rfl⟩


/-! ## Depth-first search: counting, visits and their invariants -/

theorem filter_length_mono {α : Type} (p q : α → Bool) (l : List α)
    (h : ∀ x ∈ l, p x = true → q x = true) :
    (l.filter p).length ≤ (l.filter q).length := by
  rw [← List.countP_eq_length_filter, ← List.countP_eq_length_filter]
  exact List.countP_mono_left h

theorem filter_length_strict {α : Type} (p q : α → Bool) (a : α) :
    ∀ l : List α, (∀ x ∈ l, p x = true → q x = true) →
      a ∈ l → p a = false → q a = true →
      (l.filter p).length < (l.filter q).length := by
  intro l
  induction l with
  | nil => intro _ ha; cases ha
  | cons x l ih =>
    intro h ha hpa hqa
    have hmono := filter_length_mono p q l (fun y hy => h y (List.mem_cons_of_mem _ hy))
    rcases List.mem_cons.mp ha with rfl | ha'
    · rw [List.filter_cons, List.filter_cons, if_pos hqa, if_neg (by rw [hpa]; simp)]
      exact Nat.lt_succ_of_le hmono
    · have ih' := ih (fun y hy => h y (List.mem_cons_of_mem _ hy)) ha' hpa hqa
      by_cases hp : p x = true
      · rw [List.filter_cons, List.filter_cons, if_pos hp,
          if_pos (h x (List.mem_cons_self _ _) hp)]
        exact Nat.succ_lt_succ ih'
      · rw [List.filter_cons, if_neg hp]
        by_cases hq : q x = true
        · rw [List.filter_cons, if_pos hq]
          exact Nat.lt_succ_of_lt ih'
        · rw [List.filter_cons, if_neg hq]
          exact ih'

theorem unvisCount_le_of_subset (g : Graph) (vis vis' : List String)
    (h : ∀ x ∈ vis, x ∈ vis') :
    unvisCount g vis' ≤ unvisCount g vis := by
  apply filter_length_mono
  intro x _ hx
  simp only [decide_eq_true_eq] at hx ⊢
  exact fun hc => hx (h x hc)

theorem unvisCount_lt_mark (g : Graph) (v : String) (vis : List String)
    (hv : v ∈ nodes g) (hnv : v ∉ vis) :
    unvisCount g (v :: vis) < unvisCount g vis := by
  refine filter_length_strict _ _ v (nodes g) ?_ hv ?_ ?_
  · intro x _ hx
    simp only [decide_eq_true_eq] at hx ⊢
    exact fun hc => hx (List.mem_cons_of_mem _ hc)
  · simp
  · simp [hnv]

theorem unvisCount_le_length (g : Graph) (vis : List String) :
    unvisCount g vis ≤ (nodes g).length :=
  List.length_filter_le _ _

theorem dfsVisit_succ (g : Graph) (fuel : Nat) (node : String) (s : DFSState) :
    dfsVisit g (fuel + 1) node s =
      if node ∈ s.visited then s
      else
        let s2 := (adjacent g node).foldl (fun st v => dfsVisit g fuel v st)
          ⟨node :: s.visited, s.nodeList⟩
        ⟨s2.visited, s2.nodeList ++ [node]⟩ := rfl

theorem reaches_of_adjacent (g : Graph) (a b : String) (h : b ∈ adjacent g a) :
    Reaches g a b :=
  Relation.ReflTransGen.single h

theorem reaches_trans (g : Graph) (a b c : String) (h1 : Reaches g a b)
    (h2 : Reaches g b c) : Reaches g a c :=
  Relation.ReflTransGen.trans h1 h2

/-- The visited set of a run is closed under adjacency, so it absorbs
everything reachable from its members. -/
theorem mem_of_reaches_closed (g : Graph) (V : List String)
    (hcl : ∀ x ∈ V, ∀ y ∈ adjacent g x, y ∈ V) (a b : String)
    (hab : Reaches g a b) (ha : a ∈ V) : b ∈ V := by
  induction hab with
  | refl => exact ha
  | tail _ hstep ih => exact hcl _ ih _ hstep

/-- Folding `DFSVisit` over a list of entry nodes, given the one-visit
lemma at the same fuel. -/
theorem dfsList_post_aux (g : Graph) (B G : List String) (fuel : Nat)
    (hIH : ∀ (v : String) (s : DFSState),
      unvisCount g s.visited + 1 ≤ fuel → DFSInv g B G s →
      ∃ ds, DFSPost g [v] s (dfsVisit g fuel v s) ds ∧
        DFSInv g B G (dfsVisit g fuel v s)) :
    ∀ (l : List String) (s : DFSState),
      unvisCount g s.visited + 1 ≤ fuel →
      DFSInv g B G s →
      ∃ ds, DFSPost g l s (l.foldl (fun st y => dfsVisit g fuel y st) s) ds ∧
        DFSInv g B G (l.foldl (fun st y => dfsVisit g fuel y st) s) := by
  intro l
  induction l with
  | nil =>
    intro s _ hinv
    exact ⟨[], ⟨by simp, by simp, by simp, by simp, by simp⟩, hinv⟩
  | cons y l ihl =>
    intro s hf hinv
    rw [List.foldl_cons]
    rcases hIH y s hf hinv with ⟨ds1, hpost1, hinv1⟩
    have hmono : ∀ x ∈ s.visited, x ∈ (dfsVisit g fuel y s).visited :=
      fun x hx => (hpost1.vis_iff x).mpr (Or.inl hx)
    have hf1 : unvisCount g (dfsVisit g fuel y s).visited + 1 ≤ fuel :=
      le_trans (by
        have := unvisCount_le_of_subset g s.visited (dfsVisit g fuel y s).visited hmono
        omega) hf
    rcases ihl (dfsVisit g fuel y s) hf1 hinv1 with ⟨ds2, hpost2, hinv2⟩
    refine ⟨ds1 ++ ds2, ⟨?_, ?_, ?_, ?_, ?_⟩, hinv2⟩
    · rw [hpost2.out_eq, hpost1.out_eq, List.append_assoc]
    · intro x hx
      rcases List.mem_append.mp hx with hx | hx
      · exact hpost1.fresh x hx
      · intro hc
        exact hpost2.fresh x hx (hmono x hc)
    · intro x
      rw [hpost2.vis_iff x, hpost1.vis_iff x, List.mem_append]
      tauto
    · intro a ha
      rcases List.mem_cons.mp ha with rfl | ha'
      · exact (hpost2.vis_iff a).mpr (Or.inl (hpost1.entries_vis a (List.mem_singleton_self _)))
      · exact hpost2.entries_vis a ha'
    · intro x hx
      rcases List.mem_append.mp hx with hx | hx
      · rcases hpost1.reach x hx with ⟨a, ha, hax⟩
        rw [List.mem_singleton] at ha
        subst ha
        exact ⟨a, List.mem_cons_self _ _, hax⟩
      · rcases hpost2.reach x hx with ⟨a, ha, hax⟩
        exact ⟨a, List.mem_cons_of_mem _ ha, hax⟩

/-- The effect of one sufficiently fuelled `DFSVisit` together with the
preservation of the state invariant, by induction on the fuel. -/
theorem dfsVisit_post (g : Graph) (B : List String) :
    ∀ (fuel : Nat) (G : List String) (v : String) (s : DFSState),
      unvisCount g s.visited + 1 ≤ fuel →
      DFSInv g B G s →
      ∃ ds, DFSPost g [v] s (dfsVisit g fuel v s) ds ∧
        DFSInv g B G (dfsVisit g fuel v s) := by
  intro fuel
  induction fuel with
  | zero => intro G v s hf _; omega
  | succ fuel ih =>
    intro G v s hf hinv
    rw [dfsVisit_succ]
    by_cases hv : v ∈ s.visited
    · rw [if_pos hv]
      refine ⟨[], ⟨by simp, by simp, by simp, by simpa using hv, by simp⟩, hinv⟩
    · rw [if_neg hv]
      simp only []
      -- the state after marking v
      have hinv1 : DFSInv g B (G ++ [v]) ⟨v :: s.visited, s.nodeList⟩ := by
        refine ⟨?_, hinv.nodup, hinv.disjB, ?_⟩
        · intro x
          simp only [List.mem_cons, List.mem_append, List.mem_singleton,
            List.not_mem_nil, or_false]
          constructor
          · rintro (rfl | hx)
            · exact Or.inr (Or.inr (Or.inr rfl))
            · rcases (hinv.vis_iff x).mp hx with h1 | h1 | h1
              · exact Or.inl h1
              · exact Or.inr (Or.inl h1)
              · exact Or.inr (Or.inr (Or.inl h1))
          · rintro (h1 | h1 | h1 | rfl)
            · exact Or.inr ((hinv.vis_iff x).mpr (Or.inl h1))
            · exact Or.inr ((hinv.vis_iff x).mpr (Or.inr (Or.inl h1)))
            · exact Or.inr ((hinv.vis_iff x).mpr (Or.inr (Or.inr h1)))
            · exact Or.inl rfl
        · intro x hx y hy
          exact List.mem_cons_of_mem _ (hinv.closed x hx y hy)
      -- fuel still suffices for the recursive visits
      have hfold : ∃ ds2,
          DFSPost g (adjacent g v) ⟨v :: s.visited, s.nodeList⟩
            ((adjacent g v).foldl (fun st y => dfsVisit g fuel y st)
              ⟨v :: s.visited, s.nodeList⟩) ds2 ∧
          DFSInv g B (G ++ [v])
            ((adjacent g v).foldl (fun st y => dfsVisit g fuel y st)
              ⟨v :: s.visited, s.nodeList⟩) := by
        cases hAdj : adjacent g v with
        | nil =>
          exact ⟨[], ⟨by simp, by simp, by simp, by simp, by simp⟩, hinv1⟩
        | cons a rest =>
          have hvn : v ∈ nodes g :=
            key_mem_nodes g v (adjacent_key_isSome g v (by rw [hAdj]; simp))
          have hfuel1 : unvisCount g (v :: s.visited) + 1 ≤ fuel := by
            have := unvisCount_lt_mark g v s.visited hvn hv
            omega
          rw [← hAdj]
          exact dfsList_post_aux g B (G ++ [v]) fuel (ih (G ++ [v])) (adjacent g v)
            ⟨v :: s.visited, s.nodeList⟩ hfuel1 hinv1
      rcases hfold with ⟨ds2, hpost2, hinv2⟩
      set s2 := (adjacent g v).foldl (fun st y => dfsVisit g fuel y st)
        ⟨v :: s.visited, s.nodeList⟩ with hs2
      refine ⟨ds2 ++ [v], ⟨?_, ?_, ?_, ?_, ?_⟩, ?_, ?_, ?_, ?_⟩
      · show s2.nodeList ++ [v] = s.nodeList ++ (ds2 ++ [v])
        rw [hpost2.out_eq]
        simp
      · intro x hx
        rcases List.mem_append.mp hx with hx | hx
        · intro hc
          exact hpost2.fresh x hx (List.mem_cons_of_mem _ hc)
        · rw [List.mem_singleton] at hx
          subst hx
          exact hv
      · intro x
        show x ∈ s2.visited ↔ _
        rw [hpost2.vis_iff x]
        simp only [List.mem_cons, List.mem_append, List.mem_singleton,
          List.not_mem_nil, or_false]
        constructor
        · rintro ((rfl | h1) | h1)
          · exact Or.inr (Or.inr rfl)
          · exact Or.inl h1
          · exact Or.inr (Or.inl h1)
        · rintro (h1 | h1 | rfl)
          · exact Or.inl (Or.inr h1)
          · exact Or.inr h1
          · exact Or.inl (Or.inl rfl)
      · intro a ha
        rw [List.mem_singleton] at ha
        subst ha
        show a ∈ s2.visited
        rw [hpost2.vis_iff a]
        exact Or.inl (List.mem_cons_self _ _)
      · intro x hx
        rcases List.mem_append.mp hx with hx | hx
        · rcases hpost2.reach x hx with ⟨a, haadj, hax⟩
          exact ⟨v, List.mem_singleton_self _,
            Relation.ReflTransGen.head haadj hax⟩
        · rw [List.mem_singleton] at hx
          subst hx
          exact ⟨x, List.mem_singleton_self _, Relation.ReflTransGen.refl⟩
      -- the invariant for the caller, with v moved from the gray chain
      -- to the output
      · intro x
        show x ∈ s2.visited ↔ _
        rw [hinv2.vis_iff x]
        simp only [List.mem_append, List.mem_singleton, List.mem_cons,
          List.not_mem_nil, or_false]
        constructor
        · rintro (h1 | h1 | h1 | rfl)
          · exact Or.inl h1
          · exact Or.inr (Or.inl (Or.inl h1))
          · exact Or.inr (Or.inr h1)
          · exact Or.inr (Or.inl (Or.inr rfl))
        · rintro (h1 | (h1 | rfl) | h1)
          · exact Or.inl h1
          · exact Or.inr (Or.inl h1)
          · exact Or.inr (Or.inr (Or.inr rfl))
          · exact Or.inr (Or.inr (Or.inl h1))
      · show (s2.nodeList ++ [v]).Nodup
        rw [List.nodup_append]
        refine ⟨hinv2.nodup, List.nodup_singleton _, ?_⟩
        intro x hx hx'
        rw [List.mem_singleton] at hx'
        subst hx'
        rw [hpost2.out_eq] at hx
        rcases List.mem_append.mp hx with hx | hx
        · exact hv ((hinv.vis_iff x).mpr (Or.inr (Or.inl hx)))
        · exact hpost2.fresh x hx (List.mem_cons_self _ _)
      · intro x hx
        rcases List.mem_append.mp hx with hx | hx
        · exact hinv2.disjB x hx
        · rw [List.mem_singleton] at hx
          subst hx
          intro hc
          exact hv ((hinv.vis_iff x).mpr (Or.inl hc))
      · intro x hx y hy
        show y ∈ s2.visited
        rcases List.mem_append.mp hx with hx | hx
        · exact hinv2.closed x hx y hy
        · rw [List.mem_singleton] at hx
          subst hx
          exact hpost2.entries_vis y hy


/-! ## DFS with excluded sources (claim C8) -/

theorem dfs_excl_outer (g : Graph) (B : List String) (fuel : Nat) :
    ∀ (l : List String) (s : DFSState),
      unvisCount g s.visited + 1 ≤ fuel →
      DFSInv g B [] s →
      DFSInv g B [] (l.foldl (fun st v =>
          (adjacent g v).foldl (fun st2 y => dfsVisit g fuel y st2) st) s) ∧
      (∀ x ∈ s.visited, x ∈ (l.foldl (fun st v =>
          (adjacent g v).foldl (fun st2 y => dfsVisit g fuel y st2) st) s).visited) ∧
      (∀ v ∈ l, ∀ y ∈ adjacent g v, y ∈ (l.foldl (fun st v =>
          (adjacent g v).foldl (fun st2 y => dfsVisit g fuel y st2) st) s).visited) := by
  intro l
  induction l with
  | nil =>
    intro s _ hinv
    exact ⟨hinv, fun x hx => hx, fun v hv => absurd hv (List.not_mem_nil _)⟩
  | cons v l ihl =>
    intro s hf hinv
    rw [List.foldl_cons]
    rcases dfsList_post_aux g B [] fuel (dfsVisit_post g B fuel []) (adjacent g v) s hf hinv
      with ⟨ds1, hpost1, hinv1⟩
    set sm := (adjacent g v).foldl (fun st2 y => dfsVisit g fuel y st2) s with hsm
    have hmono1 : ∀ x ∈ s.visited, x ∈ sm.visited :=
      fun x hx => (hpost1.vis_iff x).mpr (Or.inl hx)
    have hf1 : unvisCount g sm.visited + 1 ≤ fuel := by
      have := unvisCount_le_of_subset g s.visited sm.visited hmono1
      omega
    rcases ihl sm hf1 hinv1 with ⟨hinv2, hmono2, hnb2⟩
    refine ⟨hinv2, fun x hx => hmono2 x (hmono1 x hx), ?_⟩
    intro v' hv' y hy
    rcases List.mem_cons.mp hv' with rfl | hv'
    · exact hmono2 y (hpost1.entries_vis y hy)
    · exact hnb2 v' hv' y hy

theorem depthFirstSearch_excl_eq (g : Graph) (sourceNodes : Option (List String)) :
    depthFirstSearch g sourceNodes (some false) =
      ((chosenSources g sourceNodes).foldl (fun st v =>
        (adjacent g v).foldl (fun st2 y => dfsVisit g (dfsFuel g) y st2) st)
        ⟨chosenSources g sourceNodes, []⟩).nodeList := rfl

theorem depthFirstSearch_incl_eq (g : Graph) (sourceNodes : Option (List String)) :
    depthFirstSearch g sourceNodes none =
      ((chosenSources g sourceNodes).foldl
        (fun st v => dfsVisit g (dfsFuel g) v st) ⟨[], []⟩).nodeList := rfl

theorem depthFirstSearch_incl_eq_some (g : Graph) (sourceNodes : Option (List String)) :
    depthFirstSearch g sourceNodes (some true) =
      ((chosenSources g sourceNodes).foldl
        (fun st v => dfsVisit g (dfsFuel g) v st) ⟨[], []⟩).nodeList := rfl

theorem dfs_initial_inv_excl (g : Graph) (src : List String) :
    DFSInv g src [] ⟨src, []⟩ := by
  refine ⟨?_, List.nodup_nil, ?_, ?_⟩
  · intro x
    simp
  · intro x hx
    cases hx
  · intro x hx
    cases hx

theorem dfs_initial_inv_incl (g : Graph) : DFSInv g [] [] ⟨[], []⟩ := by
  refine ⟨?_, List.nodup_nil, ?_, ?_⟩
  · intro x
    simp
  · intro x hx
    cases hx
  · intro x hx
    cases hx

theorem dfs_initial_fuel (g : Graph) (vis : List String) :
    unvisCount g vis + 1 ≤ dfsFuel g := by
  have := unvisCount_le_length g vis
  unfold dfsFuel
  omega

/-- C8: with `includeSourceNodes = false`, no source node is ever output
(even one reachable from another source), yet every node reachable from a
source that is not itself a source is visited and output; and the output of
every call, in either mode, contains no duplicates. -/
theorem depthFirstSearch_no_source_output (g : Graph) (sourceNodes : Option (List String)) :
    (∀ s ∈ chosenSources g sourceNodes, s ∉ depthFirstSearch g sourceNodes (some false)) ∧
    (∀ s ∈ chosenSources g sourceNodes, ∀ v, Reaches g s v →
      v ∉ chosenSources g sourceNodes → v ∈ depthFirstSearch g sourceNodes (some false)) ∧
    (∀ inc : Option Bool, (depthFirstSearch g sourceNodes inc).Nodup) := by
  set src := chosenSources g sourceNodes with hsrc
  have hrun := dfs_excl_outer g src (dfsFuel g) src ⟨src, []⟩
    (dfs_initial_fuel g src) (dfs_initial_inv_excl g src)
  set sf := src.foldl (fun st v =>
    (adjacent g v).foldl (fun st2 y => dfsVisit g (dfsFuel g) y st2) st)
    (⟨src, []⟩ : DFSState) with hsf
  rcases hrun with ⟨hinvf, hmonof, hnbf⟩
  have hres : depthFirstSearch g sourceNodes (some false) = sf.nodeList :=
    depthFirstSearch_excl_eq g sourceNodes
  refine ⟨?_, ?_, ?_⟩
  · intro s hs
    rw [hres]
    intro hc
    exact hinvf.disjB s hc hs
  · intro s hs v hreach hv
    rw [hres]
    have hcl : ∀ x ∈ sf.visited, ∀ y ∈ adjacent g x, y ∈ sf.visited := by
      intro x hx y hy
      rcases (hinvf.vis_iff x).mp hx with h1 | h1 | h1
      · exact hnbf x h1 y hy
      · exact hinvf.closed x h1 y hy
      · cases h1
    have hsv : s ∈ sf.visited := hmonof s hs
    have hvv : v ∈ sf.visited := mem_of_reaches_closed g sf.visited hcl s v hreach hsv
    rcases (hinvf.vis_iff v).mp hvv with h1 | h1 | h1
    · exact absurd h1 hv
    · exact h1
    · cases h1
  · intro inc
    have hincl : ((src.foldl (fun st v => dfsVisit g (dfsFuel g) v st)
        (⟨[], []⟩ : DFSState)).nodeList).Nodup := by
      rcases dfsList_post_aux g [] [] (dfsFuel g) (dfsVisit_post g [] (dfsFuel g) [])
        src ⟨[], []⟩ (dfs_initial_fuel g []) (dfs_initial_inv_incl g)
        with ⟨ds, _, hinv⟩
      exact hinv.nodup
    cases inc with
    | none => rw [depthFirstSearch_incl_eq]; exact hincl
    | some b =>
      cases b with
      | true => rw [depthFirstSearch_incl_eq_some]; exact hincl
      | false => rw [hres]; exact hinvf.nodup

theorem depthFirstSearch_no_source_output_witness :
    ("A" : String) ∉ depthFirstSearch exampleGraph (some ["A"]) (some false) ∧
    ("B" : String) ∈ depthFirstSearch exampleGraph (some ["A"]) (some false) := by
  have h := depthFirstSearch_no_source_output exampleGraph (some ["A"])
  exact ⟨h.1 "A" (by decide),
    h.2.1 "A" (by decide) "B" (reaches_of_adjacent exampleGraph "A" "B" (by decide))
      (by decide)⟩



/-- Marking an unvisited node moves it onto the gray chain. -/
theorem dfsInv_mark (g : Graph) (B G : List String) (v : String) (s : DFSState)
    (hv : v ∉ s.visited) (hinv : DFSInv g B G s) :
    DFSInv g B (G ++ [v]) ⟨v :: s.visited, s.nodeList⟩ := by
  refine ⟨?_, hinv.nodup, hinv.disjB, ?_⟩
  · intro x
    simp only [List.mem_cons, List.mem_append, List.mem_singleton, List.not_mem_nil,
      or_false]
    constructor
    · rintro (rfl | hx)
      · exact Or.inr (Or.inr (Or.inr rfl))
      · rcases (hinv.vis_iff x).mp hx with h1 | h1 | h1
        · exact Or.inl h1
        · exact Or.inr (Or.inl h1)
        · exact Or.inr (Or.inr (Or.inl h1))
    · rintro (h1 | h1 | h1 | rfl)
      · exact Or.inr ((hinv.vis_iff x).mpr (Or.inl h1))
      · exact Or.inr ((hinv.vis_iff x).mpr (Or.inr (Or.inl h1)))
      · exact Or.inr ((hinv.vis_iff x).mpr (Or.inr (Or.inr h1)))
      · exact Or.inl rfl
  · intro x hx y hy
    exact List.mem_cons_of_mem _ (hinv.closed x hx y hy)


/-! ## Topological ordering (claim C2) -/

theorem precedes_append (l l3 : List String) (a b : String) (h : Precedes l a b) :
    Precedes (l ++ l3) a b := by
  rcases h with ⟨l1, l2, rfl, ha, hb⟩
  exact ⟨l1, l2 ++ l3, by rw [List.append_assoc], ha, List.mem_append.mpr (Or.inl hb)⟩

theorem precedes_output (out : List String) (a b : String) (ha : a ∈ out) :
    Precedes (out ++ [b]) a b :=
  ⟨out, [b], rfl, ha, List.mem_singleton_self b⟩

theorem precedes_reverse (l : List String) (a b : String) (h : Precedes l a b) :
    Precedes l.reverse b a := by
  rcases h with ⟨l1, l2, rfl, ha, hb⟩
  exact ⟨l2.reverse, l1.reverse, by rw [List.reverse_append],
    by simpa using hb, by simpa using ha⟩

theorem precedes_indexOf (l : List String) (a b : String) (hnd : l.Nodup)
    (h : Precedes l a b) : l.indexOf a < l.indexOf b := by
  rcases h with ⟨l1, l2, rfl, ha, hb⟩
  rw [List.nodup_append] at hnd
  have hbn : b ∉ l1 := fun hc => hnd.2.2 hc hb
  rw [List.indexOf_append_of_mem ha, List.indexOf_append_of_not_mem hbn]
  calc l1.indexOf a < l1.length := List.indexOf_lt_length.mpr ha
    _ ≤ l1.length + l2.indexOf b := Nat.le_add_right _ _

theorem ordInv_append (g : Graph) (B : List String) (out : List String) (v : String)
    (h : OrdInv g B out) (hv : ∀ y ∈ adjacent g v, y ∈ B ∨ y ∈ out) :
    OrdInv g B (out ++ [v]) := by
  intro x hx y hy
  rcases List.mem_append.mp hx with hx | hx
  · rcases h x hx y hy with h1 | h1
    · exact Or.inl h1
    · exact Or.inr (precedes_append _ _ _ _ h1)
  · rw [List.mem_singleton] at hx
    subst hx
    rcases hv y hy with h1 | h1
    · exact Or.inl h1
    · exact Or.inr (precedes_output _ _ _ h1)

/-- Folding `DFSVisit` preserves the ordering invariant, given the one-visit
version at the same fuel. -/
theorem dfsList_ord_aux (g : Graph) (B S0 : List String) (fuel : Nat)
    (hIH : ∀ (G : List String) (v : String) (s : DFSState),
      unvisCount g s.visited + 1 ≤ fuel → DFSInv g B G s →
      (∀ x ∈ G, Reaches g x v) → ReachesFrom g S0 v →
      OrdInv g B s.nodeList → OrdInv g B (dfsVisit g fuel v s).nodeList) :
    ∀ (G : List String) (l : List String) (s : DFSState),
      unvisCount g s.visited + 1 ≤ fuel →
      DFSInv g B G s →
      (∀ y ∈ l, ∀ x ∈ G, Reaches g x y) →
      (∀ y ∈ l, ReachesFrom g S0 y) →
      OrdInv g B s.nodeList →
      OrdInv g B ((l.foldl (fun st y => dfsVisit g fuel y st) s)).nodeList := by
  intro G l
  induction l with
  | nil => intro s _ _ _ _ hord; exact hord
  | cons y l ihl =>
    intro s hf hinv hg hr hord
    rw [List.foldl_cons]
    have hord1 := hIH G y s hf hinv (fun x hx => hg y (List.mem_cons_self _ _) x hx)
      (hr y (List.mem_cons_self _ _)) hord
    rcases dfsVisit_post g B fuel G y s hf hinv with ⟨ds1, hpost1, hinv1⟩
    have hmono1 : ∀ x ∈ s.visited, x ∈ (dfsVisit g fuel y s).visited :=
      fun x hx => (hpost1.vis_iff x).mpr (Or.inl hx)
    have hf1 : unvisCount g (dfsVisit g fuel y s).visited + 1 ≤ fuel := by
      have := unvisCount_le_of_subset g s.visited (dfsVisit g fuel y s).visited hmono1
      omega
    exact ihl (dfsVisit g fuel y s) hf1 hinv1
      (fun y' hy' x hx => hg y' (List.mem_cons_of_mem _ hy') x hx)
      (fun y' hy' => hr y' (List.mem_cons_of_mem _ hy')) hord1

/-- One sufficiently fuelled `DFSVisit` preserves the ordering invariant
when the reachable subgraph from the chosen sources `S0` is acyclic. -/
theorem dfsVisit_ord (g : Graph) (B S0 : List String) (hacyc : AcyclicFrom g S0) :
    ∀ (fuel : Nat) (G : List String) (v : String) (s : DFSState),
      unvisCount g s.visited + 1 ≤ fuel →
      DFSInv g B G s →
      (∀ x ∈ G, Reaches g x v) →
      ReachesFrom g S0 v →
      OrdInv g B s.nodeList →
      OrdInv g B (dfsVisit g fuel v s).nodeList := by
  intro fuel
  induction fuel with
  | zero => intro G v s hf _ _ _ _; omega
  | succ fuel ih =>
    intro G v s hf hinv hg hr hord
    rw [dfsVisit_succ]
    by_cases hv : v ∈ s.visited
    · rw [if_pos hv]
      exact hord
    · rw [if_neg hv]
      simp only []
      have hinv1 : DFSInv g B (G ++ [v]) ⟨v :: s.visited, s.nodeList⟩ :=
        dfsInv_mark g B G v s hv hinv
      have hgray1 : ∀ y ∈ adjacent g v, ∀ x ∈ G ++ [v], Reaches g x y := by
        intro y hy x hx
        rcases List.mem_append.mp hx with hx | hx
        · exact Relation.ReflTransGen.tail (hg x hx) hy
        · rw [List.mem_singleton] at hx
          subst hx
          exact Relation.ReflTransGen.single hy
      have hr1 : ∀ y ∈ adjacent g v, ReachesFrom g S0 y := by
        intro y hy
        rcases hr with ⟨s0, hs0, hs0v⟩
        exact ⟨s0, hs0, Relation.ReflTransGen.tail hs0v hy⟩
      have hmain : OrdInv g B ((adjacent g v).foldl (fun st y => dfsVisit g fuel y st)
            ⟨v :: s.visited, s.nodeList⟩).nodeList ∧
          ∃ ds2, DFSPost g (adjacent g v) ⟨v :: s.visited, s.nodeList⟩
              ((adjacent g v).foldl (fun st y => dfsVisit g fuel y st)
                ⟨v :: s.visited, s.nodeList⟩) ds2 ∧
            DFSInv g B (G ++ [v]) ((adjacent g v).foldl (fun st y => dfsVisit g fuel y st)
              ⟨v :: s.visited, s.nodeList⟩) := by
        cases hAdj : adjacent g v with
        | nil =>
          exact ⟨hord, [], ⟨by simp, by simp, by simp, by simp, by simp⟩, hinv1⟩
        | cons a rest =>
          have hvn : v ∈ nodes g :=
            key_mem_nodes g v (adjacent_key_isSome g v (by rw [hAdj]; simp))
          have hfuel1 : unvisCount g (v :: s.visited) + 1 ≤ fuel := by
            have := unvisCount_lt_mark g v s.visited hvn hv
            omega
          rw [← hAdj]
          refine ⟨dfsList_ord_aux g B S0 fuel (ih) (G ++ [v]) (adjacent g v)
              ⟨v :: s.visited, s.nodeList⟩ hfuel1 hinv1 hgray1 hr1 hord,
            dfsList_post_aux g B (G ++ [v]) fuel (dfsVisit_post g B fuel (G ++ [v]))
              (adjacent g v) ⟨v :: s.visited, s.nodeList⟩ hfuel1 hinv1⟩
      rcases hmain with ⟨hord2, ds2, hpost2, hinv2⟩
      set s2 := (adjacent g v).foldl (fun st y => dfsVisit g fuel y st)
        ⟨v :: s.visited, s.nodeList⟩ with hs2
      show OrdInv g B (s2.nodeList ++ [v])
      apply ordInv_append g B s2.nodeList v hord2
      intro y hy
      have hyv : y ∈ s2.visited := hpost2.entries_vis y hy
      rcases (hinv2.vis_iff y).mp hyv with h1 | h1 | h1
      · exact Or.inl h1
      · exact Or.inr h1
      · rcases List.mem_append.mp h1 with h1 | h1
        · exact absurd (hg y h1) (hacyc v hr y hy)
        · rw [List.mem_singleton] at h1
          subst h1
          exact absurd Relation.ReflTransGen.refl (hacyc y hr y hy)

/-- The double fold of the excluded-sources mode preserves the ordering
invariant. -/
theorem dfs_excl_outer_ord (g : Graph) (B S0 : List String) (hacyc : AcyclicFrom g S0)
    (fuel : Nat) :
    ∀ (l : List String) (s : DFSState),
      (∀ y ∈ l, y ∈ S0) →
      unvisCount g s.visited + 1 ≤ fuel →
      DFSInv g B [] s →
      OrdInv g B s.nodeList →
      OrdInv g B ((l.foldl (fun st v =>
        (adjacent g v).foldl (fun st2 y => dfsVisit g fuel y st2) st) s)).nodeList := by
  intro l
  induction l with
  | nil => intro s _ _ _ hord; exact hord
  | cons v l ihl =>
    intro s hl hf hinv hord
    rw [List.foldl_cons]
    have hordm := dfsList_ord_aux g B S0 fuel (dfsVisit_ord g B S0 hacyc fuel) []
      (adjacent g v) s hf hinv (fun y _ x hx => absurd hx (List.not_mem_nil x))
      (fun y hy => ⟨v, hl v (List.mem_cons_self _ _), Relation.ReflTransGen.single hy⟩)
      hord
    rcases dfsList_post_aux g B [] fuel (dfsVisit_post g B fuel []) (adjacent g v) s hf hinv
      with ⟨ds1, hpost1, hinv1⟩
    set sm := (adjacent g v).foldl (fun st2 y => dfsVisit g fuel y st2) s with hsm
    have hmono1 : ∀ x ∈ s.visited, x ∈ sm.visited :=
      fun x hx => (hpost1.vis_iff x).mpr (Or.inl hx)
    have hf1 : unvisCount g sm.visited + 1 ≤ fuel := by
      have := unvisCount_le_of_subset g s.visited sm.visited hmono1
      omega
    exact ihl sm (fun y hy => hl y (List.mem_cons_of_mem _ hy)) hf1 hinv1 hordm

/-- C2: `topologicalSort` is the reversed `depthFirstSearch` result with
identical arguments, and when the subgraph reachable from the chosen
sources is acyclic, every edge `(u, v)` with both endpoints in the result
has `u` strictly before `v`. -/
theorem topologicalSort_spec (g : Graph) (sourceNodes : Option (List String))
    (includeSourceNodes : Option Bool) :
    topologicalSort g sourceNodes includeSourceNodes =
      (depthFirstSearch g sourceNodes includeSourceNodes).reverse ∧
    (AcyclicFrom g (chosenSources g sourceNodes) →
      ∀ u v, v ∈ adjacent g u →
        u ∈ topologicalSort g sourceNodes includeSourceNodes →
        v ∈ topologicalSort g sourceNodes includeSourceNodes →
        (topologicalSort g sourceNodes includeSourceNodes).indexOf u <
          (topologicalSort g sourceNodes includeSourceNodes).indexOf v) := by
  refine ⟨rfl, ?_⟩
  intro hacyc u v hedge hu hv
  have hfacts : ∃ B : List String,
      OrdInv g B (depthFirstSearch g sourceNodes includeSourceNodes) ∧
      (depthFirstSearch g sourceNodes includeSourceNodes).Nodup ∧
      (∀ x ∈ depthFirstSearch g sourceNodes includeSourceNodes, x ∉ B) := by
    have hordnil : OrdInv g (chosenSources g sourceNodes) [] :=
      fun x hx => absurd hx (List.not_mem_nil x)
    have hincl : OrdInv g []
        (((chosenSources g sourceNodes).foldl
          (fun st v => dfsVisit g (dfsFuel g) v st) ⟨[], []⟩).nodeList) ∧
        (((chosenSources g sourceNodes).foldl
          (fun st v => dfsVisit g (dfsFuel g) v st) ⟨[], []⟩).nodeList).Nodup := by
      constructor
      · exact dfsList_ord_aux g [] (chosenSources g sourceNodes) (dfsFuel g)
          (dfsVisit_ord g [] (chosenSources g sourceNodes) hacyc (dfsFuel g)) []
          (chosenSources g sourceNodes) ⟨[], []⟩ (dfs_initial_fuel g [])
          (dfs_initial_inv_incl g)
          (fun y _ x hx => absurd hx (List.not_mem_nil x))
          (fun y hy => ⟨y, hy, Relation.ReflTransGen.refl⟩)
          (fun x hx => absurd hx (List.not_mem_nil x))
      · rcases dfsList_post_aux g [] [] (dfsFuel g) (dfsVisit_post g [] (dfsFuel g) [])
          (chosenSources g sourceNodes) ⟨[], []⟩ (dfs_initial_fuel g [])
          (dfs_initial_inv_incl g) with ⟨ds, _, hinv⟩
        exact hinv.nodup
    cases includeSourceNodes with
    | none =>
      refine ⟨[], ?_, ?_, fun x _ hc => List.not_mem_nil x hc⟩
      · rw [depthFirstSearch_incl_eq]
        exact hincl.1
      · rw [depthFirstSearch_incl_eq]
        exact hincl.2
    | some b =>
      cases b with
      | true =>
        refine ⟨[], ?_, ?_, fun x _ hc => List.not_mem_nil x hc⟩
        · rw [depthFirstSearch_incl_eq_some]
          exact hincl.1
        · rw [depthFirstSearch_incl_eq_some]
          exact hincl.2
      | false =>
        refine ⟨chosenSources g sourceNodes, ?_, ?_, ?_⟩
        · rw [depthFirstSearch_excl_eq]
          exact dfs_excl_outer_ord g (chosenSources g sourceNodes)
            (chosenSources g sourceNodes) hacyc (dfsFuel g)
            (chosenSources g sourceNodes) ⟨chosenSources g sourceNodes, []⟩
            (fun y hy => hy) (dfs_initial_fuel g _)
            (dfs_initial_inv_excl g _) hordnil
        · rw [depthFirstSearch_excl_eq]
          rcases dfs_excl_outer g (chosenSources g sourceNodes) (dfsFuel g)
            (chosenSources g sourceNodes) ⟨chosenSources g sourceNodes, []⟩
            (dfs_initial_fuel g _) (dfs_initial_inv_excl g _) with ⟨hinvf, _, _⟩
          exact hinvf.nodup
        · rw [depthFirstSearch_excl_eq]
          rcases dfs_excl_outer g (chosenSources g sourceNodes) (dfsFuel g)
            (chosenSources g sourceNodes) ⟨chosenSources g sourceNodes, []⟩
            (dfs_initial_fuel g _) (dfs_initial_inv_excl g _) with ⟨hinvf, _, _⟩
          exact hinvf.disjB
  rcases hfacts with ⟨B, hord, hnodup, hdisjB⟩
  have hu' : u ∈ depthFirstSearch g sourceNodes includeSourceNodes :=
    List.mem_reverse.mp hu
  have hv' : v ∈ depthFirstSearch g sourceNodes includeSourceNodes :=
    List.mem_reverse.mp hv
  have hstep := hord u hu' v hedge
  rcases hstep with h1 | h1
  · exact absurd h1 (hdisjB v hv')
  · have hprec := precedes_reverse _ _ _ h1
    exact precedes_indexOf _ u v (List.nodup_reverse.mpr hnodup) hprec


/-- The example store is acyclic from its full node set: finite case
analysis over the closures of its adjacency lists. -/
theorem exampleGraph_acyclic : AcyclicFrom exampleGraph (chosenSources exampleGraph none) := by
  have hVB : ∀ a ∈ (["B", "C"] : List String), ∀ b ∈ adjacent exampleGraph a,
      b ∈ (["B", "C"] : List String) := by
    intro a ha
    fin_cases ha
    · intro b hb
      have he : adjacent exampleGraph "B" = ["C"] := rfl
      rw [he] at hb
      fin_cases hb
      decide
    · intro b hb
      have he : adjacent exampleGraph "C" = [] := rfl
      rw [he] at hb
      cases hb
  have hVC : ∀ a ∈ (["C"] : List String), ∀ b ∈ adjacent exampleGraph a,
      b ∈ (["C"] : List String) := by
    intro a ha
    fin_cases ha
    intro b hb
    have he : adjacent exampleGraph "C" = [] := rfl
    rw [he] at hb
    cases hb
  have hVall : ∀ a ∈ (["A", "B", "C"] : List String), ∀ b ∈ adjacent exampleGraph a,
      b ∈ (["A", "B", "C"] : List String) := by
    intro a ha
    fin_cases ha
    · intro b hb
      have he : adjacent exampleGraph "A" = ["B", "C"] := rfl
      rw [he] at hb
      fin_cases hb
      · decide
      · decide
    · intro b hb
      have he : adjacent exampleGraph "B" = ["C"] := rfl
      rw [he] at hb
      fin_cases hb
      decide
    · intro b hb
      have he : adjacent exampleGraph "C" = [] := rfl
      rw [he] at hb
      cases hb
  intro x hx y hy hyx
  rcases hx with ⟨s0, hs0, hs0x⟩
  have hs0m : s0 ∈ (["A", "B", "C"] : List String) := by
    have he : chosenSources exampleGraph none = ["A", "B", "C"] := rfl
    rw [he] at hs0
    exact hs0
  have hxm : x ∈ (["A", "B", "C"] : List String) :=
    mem_of_reaches_closed exampleGraph _ hVall s0 x hs0x hs0m
  fin_cases hxm
  · have he : adjacent exampleGraph "A" = ["B", "C"] := rfl
    rw [he] at hy
    fin_cases hy
    · exact absurd (mem_of_reaches_closed exampleGraph ["B", "C"] hVB "B" "A" hyx
        (by decide)) (by decide)
    · exact absurd (mem_of_reaches_closed exampleGraph ["C"] hVC "C" "A" hyx
        (by decide)) (by decide)
  · have he : adjacent exampleGraph "B" = ["C"] := rfl
    rw [he] at hy
    fin_cases hy
    exact absurd (mem_of_reaches_closed exampleGraph ["C"] hVC "C" "B" hyx
      (by decide)) (by decide)
  · have he : adjacent exampleGraph "C" = [] := rfl
    rw [he] at hy
    cases hy

theorem topologicalSort_spec_witness :
    ("B" : String) ∈ adjacent exampleGraph "A" ∧
    (topologicalSort exampleGraph none none).indexOf "A" <
      (topologicalSort exampleGraph none none).indexOf "B" := by
  have h := topologicalSort_spec exampleGraph none none
  exact ⟨by decide,
    h.2 exampleGraph_acyclic "A" "B" (by decide) (by decide) (by decide)⟩

/-! ## Serialization round-trip (claim C3) -/

theorem foldl_append_flatten {α β : Type} (f : α → List β) (xs : List α) :
    ∀ acc : List β, xs.foldl (fun a x => a ++ f x) acc = acc ++ (xs.map f).flatten := by
  induction xs with
  | nil => intro acc; simp
  | cons x xs ih =>
    intro acc
    rw [List.foldl_cons, ih]
    simp

theorem serialize_links_eq (g : Graph) :
    (serialize g).links =
      ((nodes g).map (fun u => (adjacent g u).map (serializeLink g u))).flatten := by
  have h := foldl_append_flatten (fun u => (adjacent g u).map (serializeLink g u)) (nodes g) []
  rw [List.nil_append] at h
  exact h

theorem serialize_nodes_eq (g : Graph) : (serialize g).nodes = nodes g := rfl

theorem mem_serialize_links (g : Graph) (l : SLink) :
    l ∈ (serialize g).links ↔ ∃ u ∈ nodes g, ∃ t ∈ adjacent g u, l = serializeLink g u t := by
  rw [serialize_links_eq, List.mem_flatten]
  constructor
  · rintro ⟨gl, hgl, hl⟩
    rcases List.mem_map.mp hgl with ⟨u, hu, rfl⟩
    rcases List.mem_map.mp hl with ⟨t, ht, rfl⟩
    exact ⟨u, hu, t, ht, rfl⟩
  · rintro ⟨u, hu, t, ht, rfl⟩
    exact ⟨(adjacent g u).map (serializeLink g u),
      List.mem_map_of_mem _ hu, List.mem_map_of_mem _ ht⟩

theorem group_filter_target (g : Graph) (u n : String) :
    ∀ ts : List String,
      ((ts.map (serializeLink g u)).filter (fun l => l.source = n)).map (fun l => l.target) =
        if u = n then ts else [] := by
  intro ts
  induction ts with
  | nil =>
    simp only [List.map_nil, List.filter_nil]
    split <;> rfl
  | cons t ts ih =>
    by_cases h : u = n
    · subst h
      simp only [if_pos rfl] at ih
      simp [List.filter_cons, serializeLink, ih]
    · simp only [if_neg h] at ih
      simp [List.filter_cons, serializeLink, h, ih]

theorem links_filter_target (g : Graph) (n : String) :
    ∀ us : List String, us.Nodup →
      (((us.map (fun u => (adjacent g u).map (serializeLink g u))).flatten.filter
        (fun l => l.source = n)).map (fun l => l.target)) =
        if n ∈ us then adjacent g n else [] := by
  intro us
  induction us with
  | nil => intro _; simp
  | cons u us ih =>
    intro hnd
    rcases List.nodup_cons.mp hnd with ⟨hu, hnd'⟩
    rw [List.map_cons, List.flatten_cons, List.filter_append, List.map_append,
      group_filter_target, ih hnd']
    by_cases h : u = n
    · subst h
      rw [if_pos rfl, if_neg hu, if_pos (List.mem_cons_self _ _)]
      simp
    · rw [if_neg h]
      by_cases hm : n ∈ us
      · rw [if_pos hm, if_pos (List.mem_cons_of_mem _ hm)]
        simp
      · rw [if_neg hm,
          if_neg (fun hc => (List.mem_cons.mp hc).elim (fun he => h (Eq.symm he)) hm)]
        simp

theorem adjacent_foldl_addNode (ns : List String) :
    ∀ (h : Graph) (n : String),
      adjacent (ns.foldl (fun g x => addNode g x) h) n = adjacent h n := by
  induction ns with
  | nil => intro h n; rfl
  | cons x ns ih =>
    intro h n
    rw [List.foldl_cons, ih, adjacent_addNode]

theorem adjacent_foldl_addEdge (L : List SLink) :
    ∀ (h : Graph) (n : String),
      adjacent (L.foldl (fun g l => addEdge g l.source l.target l.weight l.data) h) n =
        adjacent h n ++ (L.filter (fun l => l.source = n)).map (fun l => l.target) := by
  induction L with
  | nil => intro h n; simp
  | cons l L ih =>
    intro h n
    rw [List.foldl_cons, ih, adjacent_addEdge, List.filter_cons]
    by_cases hc : l.source = n
    · subst hc
      rw [if_pos rfl]
      simp
    · rw [if_neg (fun he => hc he.symm)]
      simp [hc]

theorem keys_foldl_addNode (ns : List String) :
    ∀ (h : Graph) (x : String),
      (alookup (ns.foldl (fun g n => addNode g n) h).edges x).isSome ↔
        x ∈ ns ∨ (alookup h.edges x).isSome := by
  induction ns with
  | nil => intro h x; simp
  | cons n ns ih =>
    intro h x
    rw [List.foldl_cons, ih, alookup_addNode_isSome]
    simp [List.mem_cons]
    tauto

theorem keys_foldl_addEdge (L : List SLink) :
    ∀ (h : Graph) (x : String),
      (alookup (L.foldl (fun g l => addEdge g l.source l.target l.weight l.data) h).edges
        x).isSome ↔
        (∃ l ∈ L, x = l.source ∨ x = l.target) ∨ (alookup h.edges x).isSome := by
  induction L with
  | nil => intro h x; simp
  | cons l L ih =>
    intro h x
    rw [List.foldl_cons, ih, alookup_addEdge_isSome]
    simp only [List.mem_cons]
    constructor
    · rintro (⟨l', hl', hx⟩ | (h1 | (h1 | h1)))
      · exact Or.inl ⟨l', Or.inr hl', hx⟩
      · exact Or.inl ⟨l, Or.inl rfl, Or.inl h1⟩
      · exact Or.inl ⟨l, Or.inl rfl, Or.inr h1⟩
      · exact Or.inr h1
    · rintro (⟨l', (rfl | hl'), hx⟩ | h1)
      · rcases hx with h1 | h1
        · exact Or.inr (Or.inl h1)
        · exact Or.inr (Or.inr (Or.inl h1))
      · exact Or.inl ⟨l', hl', hx⟩
      · exact Or.inr (Or.inr (Or.inr h1))

theorem mem_nodes_wf (g : Graph) (hk : (g.edges.map Prod.fst).Nodup) (x : String) :
    x ∈ nodes g ↔ (alookup g.edges x).isSome ∨ ∃ u, x ∈ adjacent g u := by
  rw [mem_nodes]
  constructor
  · rintro ⟨kv, hkv, (rfl | hx)⟩
    · exact Or.inl ((alookup_isSome_iff _ _).mpr (List.mem_map_of_mem _ hkv))
    · exact Or.inr ⟨kv.1, by
        simp [adjacent, alookup_of_mem_of_nodupKeys _ hk kv hkv, hx]⟩
  · rintro (h | ⟨u, hu⟩)
    · rw [alookup_isSome_iff] at h
      rcases List.mem_map.mp h with ⟨kv, hkv, he⟩
      exact ⟨kv, hkv, Or.inl he.symm⟩
    · cases hl : alookup g.edges u with
      | none => simp [adjacent, hl] at hu
      | some l2 =>
        simp only [adjacent, hl, Option.getD_some] at hu
        exact ⟨(u, l2), alookup_mem _ _ _ hl, Or.inr hu⟩

theorem addEdge_edgeWeights (g : Graph) (u v : String) (w : Option ℚ) (dt : Option EData) :
    (addEdge g u v w dt).edgeWeights = match w with
      | some x => aset g.edgeWeights (encodeEdge u v) x
      | none => g.edgeWeights := by
  cases w <;> cases dt <;> rfl

theorem addEdge_edgeData (g : Graph) (u v : String) (w : Option ℚ) (dt : Option EData) :
    (addEdge g u v w dt).edgeData = match dt with
      | some x => aset g.edgeData (encodeDataEdge u v) x
      | none => g.edgeData := by
  cases w <;> cases dt <;> rfl

theorem weights_foldl_addEdge (L : List SLink) :
    ∀ (h : Graph) (k : String),
      alookup (L.foldl (fun g l => addEdge g l.source l.target l.weight l.data) h).edgeWeights
        k =
        match lastW L k with
        | some w => some w
        | none => alookup h.edgeWeights k := by
  induction L with
  | nil => intro h k; rfl
  | cons l L ih =>
    intro h k
    rw [List.foldl_cons, ih]
    have hcons : lastW (l :: L) k =
        match lastW L k with
        | some w => some w
        | none => if encodeEdge l.source l.target = k then l.weight else none := rfl
    rw [hcons]
    cases hw : lastW L k with
    | some w => rfl
    | none =>
      by_cases hk : encodeEdge l.source l.target = k
      · rw [if_pos hk]
        cases hlw : l.weight with
        | some w =>
          subst hk
          rw [addEdge_edgeWeights]
          exact alookup_aset_self _ _ _
        | none =>
          rw [addEdge_edgeWeights]
      · rw [if_neg hk]
        rw [addEdge_edgeWeights]
        cases hlw : l.weight with
        | some w => exact alookup_aset_ne _ _ _ _ (fun he => hk (Eq.symm he))
        | none => rfl

theorem data_foldl_addEdge (L : List SLink) :
    ∀ (h : Graph) (k : String),
      alookup (L.foldl (fun g l => addEdge g l.source l.target l.weight l.data) h).edgeData
        k =
        match lastD L k with
        | some dt => some dt
        | none => alookup h.edgeData k := by
  induction L with
  | nil => intro h k; rfl
  | cons l L ih =>
    intro h k
    rw [List.foldl_cons, ih]
    have hcons : lastD (l :: L) k =
        match lastD L k with
        | some dt => some dt
        | none => if encodeDataEdge l.source l.target = k then l.data else none := rfl
    rw [hcons]
    cases hw : lastD L k with
    | some dt => rfl
    | none =>
      by_cases hk : encodeDataEdge l.source l.target = k
      · rw [if_pos hk]
        cases hld : l.data with
        | some dt =>
          subst hk
          rw [addEdge_edgeData]
          exact alookup_aset_self _ _ _
        | none =>
          rw [addEdge_edgeData]
      · rw [if_neg hk]
        rw [addEdge_edgeData]
        cases hld : l.data with
        | some dt => exact alookup_aset_ne _ _ _ _ (fun he => hk (Eq.symm he))
        | none => rfl

theorem lastW_eq_none (k : String) :
    ∀ L : List SLink, (∀ l ∈ L, encodeEdge l.source l.target ≠ k) → lastW L k = none := by
  intro L
  induction L with
  | nil => intro _; rfl
  | cons l L ih =>
    intro h
    unfold lastW
    rw [ih (fun l' hl' => h l' (List.mem_cons_of_mem _ hl')),
      if_neg (h l (List.mem_cons_self _ _))]

theorem lastD_eq_none (k : String) :
    ∀ L : List SLink, (∀ l ∈ L, encodeDataEdge l.source l.target ≠ k) → lastD L k = none := by
  intro L
  induction L with
  | nil => intro _; rfl
  | cons l L ih =>
    intro h
    unfold lastD
    rw [ih (fun l' hl' => h l' (List.mem_cons_of_mem _ hl')),
      if_neg (h l (List.mem_cons_self _ _))]

theorem lastW_of_uniform (k : String) (W : ℚ) :
    ∀ L : List SLink,
      (∀ l ∈ L, encodeEdge l.source l.target = k → l.weight = some W) →
      (∃ l ∈ L, encodeEdge l.source l.target = k) → lastW L k = some W := by
  intro L
  induction L with
  | nil => rintro _ ⟨l, hl, _⟩; cases hl
  | cons l L ih =>
    intro hall hex
    unfold lastW
    by_cases hLex : ∃ l' ∈ L, encodeEdge l'.source l'.target = k
    · rw [ih (fun l' h' => hall l' (List.mem_cons_of_mem _ h')) hLex]
    · have hnone : lastW L k = none := by
        apply lastW_eq_none
        intro l' hl' he
        exact hLex ⟨l', hl', he⟩
      rw [hnone]
      rcases hex with ⟨l', hl', he⟩
      rcases List.mem_cons.mp hl' with rfl | hmem
      · rw [if_pos he]
        exact hall l' (List.mem_cons_self _ _) he
      · exact absurd ⟨l', hmem, he⟩ hLex

theorem lastD_of_uniform (k : String) (W : EData) :
    ∀ L : List SLink,
      (∀ l ∈ L, encodeDataEdge l.source l.target = k → l.data = some W) →
      (∃ l ∈ L, encodeDataEdge l.source l.target = k) → lastD L k = some W := by
  intro L
  induction L with
  | nil => rintro _ ⟨l, hl, _⟩; cases hl
  | cons l L ih =>
    intro hall hex
    unfold lastD
    by_cases hLex : ∃ l' ∈ L, encodeDataEdge l'.source l'.target = k
    · rw [ih (fun l' h' => hall l' (List.mem_cons_of_mem _ h')) hLex]
    · have hnone : lastD L k = none := by
        apply lastD_eq_none
        intro l' hl' he
        exact hLex ⟨l', hl', he⟩
      rw [hnone]
      rcases hex with ⟨l', hl', he⟩
      rcases List.mem_cons.mp hl' with rfl | hmem
      · rw [if_pos he]
        exact hall l' (List.mem_cons_self _ _) he
      · exact absurd ⟨l', hmem, he⟩ hLex

theorem adjacent_eq_nil_of_not_mem_nodes (g : Graph) (n : String) (hn : n ∉ nodes g) :
    adjacent g n = [] := by
  cases hA : adjacent g n with
  | nil => rfl
  | cons a l =>
    exact absurd (key_mem_nodes g n (adjacent_key_isSome g n (by rw [hA]; simp))) hn

theorem deserialize_adjacent (g : Graph) (n : String) :
    adjacent (deserialize (serialize g)) n = adjacent g n := by
  show adjacent ((serialize g).links.foldl
    (fun h l => addEdge h l.source l.target l.weight l.data)
    ((serialize g).nodes.foldl (fun h x => addNode h x) emptyGraph)) n = adjacent g n
  rw [adjacent_foldl_addEdge, adjacent_foldl_addNode]
  have hmt : adjacent emptyGraph n = [] := rfl
  rw [hmt, List.nil_append, serialize_links_eq, links_filter_target g n (nodes g) (nodes_nodup g)]
  split
  · rfl
  · rename_i hn
    exact (adjacent_eq_nil_of_not_mem_nodes g n hn).symm

/-- C3: `deserialize(serialize(G))` has the same derived node set as `G`,
the same adjacency sequence for every node (duplicates and order included),
and for every ordered pair in the adjacency store the same observable
weight and payload. -/
theorem deserialize_serialize_roundtrip (g : Graph) :
    (∀ x, x ∈ nodes (deserialize (serialize g)) ↔ x ∈ nodes g) ∧
    (∀ n, adjacent (deserialize (serialize g)) n = adjacent g n) ∧
    (∀ u v, v ∈ adjacent g u →
      getEdgeWeight (deserialize (serialize g)) u v = getEdgeWeight g u v ∧
      getEdgeData (deserialize (serialize g)) u v = getEdgeData g u v) := by
  refine ⟨?_, deserialize_adjacent g, ?_⟩
  · intro x
    have hwf : Wf (deserialize (serialize g)) := wf_deserialize _
    rw [mem_nodes_wf _ hwf.1]
    have hkeys : (alookup (deserialize (serialize g)).edges x).isSome ↔
        (∃ l ∈ (serialize g).links, x = l.source ∨ x = l.target) ∨ x ∈ nodes g := by
      show (alookup ((serialize g).links.foldl
        (fun h l => addEdge h l.source l.target l.weight l.data)
        ((serialize g).nodes.foldl (fun h n => addNode h n) emptyGraph)).edges x).isSome ↔ _
      rw [keys_foldl_addEdge, keys_foldl_addNode, serialize_nodes_eq]
      have hemp : ¬ (alookup emptyGraph.edges x).isSome := by simp [emptyGraph]
      constructor
      · rintro (h1 | (h1 | h1))
        · exact Or.inl h1
        · exact Or.inr h1
        · exact absurd h1 hemp
      · rintro (h1 | h1)
        · exact Or.inl h1
        · exact Or.inr (Or.inl h1)
    constructor
    · rintro (h | ⟨u, hu⟩)
      · rcases hkeys.mp h with (⟨l, hl, hx⟩ | h1)
        · rcases (mem_serialize_links g l).mp hl with ⟨u', hu', t', ht', rfl⟩
          rcases hx with rfl | rfl
          · exact hu'
          · exact adjacent_mem_nodes g u' _ ht'
        · exact h1
      · rw [deserialize_adjacent g u] at hu
        exact adjacent_mem_nodes g u x hu
    · intro hx
      exact Or.inl (hkeys.mpr (Or.inr hx))
  · intro u v hv
    have hus : u ∈ nodes g := adjacent_source_mem_nodes g u v hv
    have hmem : serializeLink g u v ∈ (serialize g).links :=
      (mem_serialize_links g _).mpr ⟨u, hus, v, hv, rfl⟩
    constructor
    · have hW : lastW (serialize g).links (encodeEdge u v) = some (getEdgeWeight g u v) := by
        apply lastW_of_uniform
        · intro l hl hk
          rcases (mem_serialize_links g l).mp hl with ⟨u', _, t', _, rfl⟩
          show some (getEdgeWeight g u' t') = some (getEdgeWeight g u v)
          unfold getEdgeWeight
          rw [show encodeEdge u' t' = encodeEdge u v from hk]
        · exact ⟨serializeLink g u v, hmem, rfl⟩
      show (alookup (deserialize (serialize g)).edgeWeights (encodeEdge u v)).getD 1 = _
      have := weights_foldl_addEdge (serialize g).links
        ((serialize g).nodes.foldl (fun h n => addNode h n) emptyGraph) (encodeEdge u v)
      rw [show (deserialize (serialize g)).edgeWeights =
        ((serialize g).links.foldl (fun h l => addEdge h l.source l.target l.weight l.data)
          ((serialize g).nodes.foldl (fun h n => addNode h n) emptyGraph)).edgeWeights from rfl,
        this, hW]
      rfl
    · have hD : lastD (serialize g).links (encodeDataEdge u v) = some (getEdgeData g u v) := by
        apply lastD_of_uniform
        · intro l hl hk
          rcases (mem_serialize_links g l).mp hl with ⟨u', _, t', _, rfl⟩
          show some (getEdgeData g u' t') = some (getEdgeData g u v)
          unfold getEdgeData
          rw [show encodeDataEdge u' t' = encodeDataEdge u v from hk]
        · exact ⟨serializeLink g u v, hmem, rfl⟩
      show (alookup (deserialize (serialize g)).edgeData (encodeDataEdge u v)).getD [] = _
      have := data_foldl_addEdge (serialize g).links
        ((serialize g).nodes.foldl (fun h n => addNode h n) emptyGraph) (encodeDataEdge u v)
      rw [show (deserialize (serialize g)).edgeData =
        ((serialize g).links.foldl (fun h l => addEdge h l.source l.target l.weight l.data)
          ((serialize g).nodes.foldl (fun h n => addNode h n) emptyGraph)).edgeData from rfl,
        this, hD]
      rfl

theorem deserialize_serialize_roundtrip_witness :
    ("B" : String) ∈ adjacent exampleGraph "A" ∧
    getEdgeWeight (deserialize (serialize exampleGraph)) "A" "B" =
      getEdgeWeight exampleGraph "A" "B" ∧
    adjacent (deserialize (serialize exampleGraph)) "A" = adjacent exampleGraph "A" := by
  have h := deserialize_serialize_roundtrip exampleGraph
  refine ⟨by decide, (h.2.2 "A" "B" (by decide)).1, h.2.1 "A"⟩



/-! ## Dijkstra: routes and the priority queue -/

theorem route_head (g : Graph) (b c : String) (l : List String) (h : Route g b l c) :
    ∃ t, l = b :: t := by
  cases h with
  | refl => exact ⟨[], rfl⟩
  | step _ b' _ l' _ _ => exact ⟨l', rfl⟩

theorem route_reaches (g : Graph) (a : String) (l : List String) (c : String)
    (h : Route g a l c) : Reaches g a c := by
  induction h with
  | refl => exact Relation.ReflTransGen.refl
  | step a b c l hadj _ ih => exact Relation.ReflTransGen.head hadj ih

theorem route_snoc (g : Graph) :
    ∀ (a : String) (l : List String) (u : String), Route g a l u →
      ∀ v ∈ adjacent g u,
        Route g a (l ++ [v]) v ∧
          pathWeight g (l ++ [v]) = pathWeight g l + getEdgeWeight g u v := by
  intro a l u h
  induction h with
  | refl a =>
    intro v hv
    refine ⟨Route.step a v v [v] hv (Route.refl v), ?_⟩
    show getEdgeWeight g a v + pathWeight g [v] = pathWeight g [a] + getEdgeWeight g a v
    show getEdgeWeight g a v + 0 = 0 + getEdgeWeight g a v
    ring
  | step a b c l hadj hr ih =>
    intro v hv
    rcases ih v hv with ⟨hroute, hweight⟩
    refine ⟨Route.step a b v (l ++ [v]) hadj hroute, ?_⟩
    rcases route_head g b c l hr with ⟨t, rfl⟩
    show getEdgeWeight g a b + pathWeight g ((b :: t) ++ [v]) =
      (getEdgeWeight g a b + pathWeight g (b :: t)) + getEdgeWeight g c v
    rw [hweight]
    ring

theorem route_nonneg (g : Graph) (source : String) (hnn : NonnegFrom g source) :
    ∀ (a : String) (l : List String) (c : String), Route g a l c →
      Reaches g source a → 0 ≤ pathWeight g l := by
  intro a l c h
  induction h with
  | refl a => intro _; exact le_of_eq rfl
  | step a b c l hadj hr ih =>
    intro hra
    have hw : 0 ≤ getEdgeWeight g a b := hnn a b hra hadj
    have hrb : Reaches g source b := Relation.ReflTransGen.tail hra hadj
    have ht := ih hrb
    rcases route_head g b c l hr with ⟨t, rfl⟩
    show 0 ≤ getEdgeWeight g a b + pathWeight g (b :: t)
    linarith

/-- The running minimum of the `extractMin` scan over a suffix of the
queue. -/
def MinAcc (d : DMap) (acc : Option ℚ × Option String) (S : List String) : Prop :=
  (acc.1 = none ∧ acc.2 = none ∧ ∀ z ∈ S, ∀ x : ℚ, alookup d z ≠ some (some x)) ∨
  (∃ m u, acc.1 = some m ∧ acc.2 = some u ∧ u ∈ S ∧ alookup d u = some (some m) ∧
    ∀ z ∈ S, ∀ x : ℚ, alookup d z = some (some x) → m ≤ x)

theorem minAcc_foldl (d : DMap) :
    ∀ (q : List String) (acc : Option ℚ × Option String) (S : List String),
      MinAcc d acc S →
      MinAcc d (q.foldl (fun (acc : Option ℚ × Option String) node =>
        match alookup d node, acc.1 with
        | some (some x), none => (some x, some node)
        | some (some x), some m => if x < m then (some x, some node) else acc
        | _, _ => acc) acc) (S ++ q) := by
  intro q
  induction q with
  | nil => intro acc S h; simpa using h
  | cons z q ih =>
    intro acc S h
    rw [List.foldl_cons]
    have hstep : MinAcc d
        (match alookup d z, acc.1 with
          | some (some x), none => (some x, some z)
          | some (some x), some m => if x < m then (some x, some z) else acc
          | _, _ => acc) (S ++ [z]) := by
      cases hdz : alookup d z with
      | none =>
        rcases h with ⟨h1, h2, h3⟩ | ⟨m, u, h1, h2, h3, h4, h5⟩
        · refine Or.inl ⟨by rw [h1], by rw [h1]; exact h2, ?_⟩
          intro z' hz' x
          rcases List.mem_append.mp hz' with hz' | hz'
          · exact h3 z' hz' x
          · rw [List.mem_singleton] at hz'
            subst hz'
            rw [hdz]
            intro hc
            cases hc
        · refine Or.inr ⟨m, u, by rw [h1], by rw [h1]; exact h2,
            List.mem_append.mpr (Or.inl h3), h4, ?_⟩
          intro z' hz' x hx
          rcases List.mem_append.mp hz' with hz' | hz'
          · exact h5 z' hz' x hx
          · rw [List.mem_singleton] at hz'
            subst hz'
            rw [hdz] at hx
            cases hx
      | some o =>
        cases o with
        | none =>
          rcases h with ⟨h1, h2, h3⟩ | ⟨m, u, h1, h2, h3, h4, h5⟩
          · refine Or.inl ⟨by rw [h1], by rw [h1]; exact h2, ?_⟩
            intro z' hz' x
            rcases List.mem_append.mp hz' with hz' | hz'
            · exact h3 z' hz' x
            · rw [List.mem_singleton] at hz'
              subst hz'
              rw [hdz]
              intro hc
              cases hc
          · refine Or.inr ⟨m, u, by rw [h1], by rw [h1]; exact h2,
              List.mem_append.mpr (Or.inl h3), h4, ?_⟩
            intro z' hz' x hx
            rcases List.mem_append.mp hz' with hz' | hz'
            · exact h5 z' hz' x hx
            · rw [List.mem_singleton] at hz'
              subst hz'
              rw [hdz] at hx
              cases hx
        | some x =>
          rcases h with ⟨h1, h2, h3⟩ | ⟨m, u, h1, h2, h3, h4, h5⟩
          · rw [h1]
            refine Or.inr ⟨x, z, rfl, rfl, List.mem_append.mpr (Or.inr (List.mem_singleton_self _)), hdz, ?_⟩
            intro z' hz' x' hx'
            rcases List.mem_append.mp hz' with hz' | hz'
            · exact absurd hx' (h3 z' hz' x')
            · rw [List.mem_singleton] at hz'
              subst hz'
              rw [hdz] at hx'
              cases hx'
              exact le_refl _
          · rw [h1]
            show MinAcc d
              (if x < m then ((some x : Option ℚ), (some z : Option String)) else acc)
              (S ++ [z])
            by_cases hlt : x < m
            · rw [if_pos hlt]
              refine Or.inr ⟨x, z, rfl, rfl,
                List.mem_append.mpr (Or.inr (List.mem_singleton_self _)), hdz, ?_⟩
              intro z' hz' x' hx'
              rcases List.mem_append.mp hz' with hz' | hz'
              · exact le_trans (le_of_lt hlt) (h5 z' hz' x' hx')
              · rw [List.mem_singleton] at hz'
                subst hz'
                rw [hdz] at hx'
                cases hx'
                exact le_refl _
            · rw [if_neg hlt]
              refine Or.inr ⟨m, u, h1, h2, List.mem_append.mpr (Or.inl h3), h4, ?_⟩
              intro z' hz' x' hx'
              rcases List.mem_append.mp hz' with hz' | hz'
              · exact h5 z' hz' x' hx'
              · rw [List.mem_singleton] at hz'
                subst hz'
                rw [hdz] at hx'
                cases hx'
                exact le_of_not_lt hlt
    have := ih _ (S ++ [z]) hstep
    rwa [List.append_assoc] at this

theorem extractMin_spec (d : DMap) (q : List String) :
    ((extractMin d q).1 = none ∧ (extractMin d q).2 = [] ∧
      ∀ z ∈ q, ∀ x : ℚ, alookup d z ≠ some (some x)) ∨
    (∃ u m, (extractMin d q).1 = some u ∧ (extractMin d q).2 = q.erase u ∧ u ∈ q ∧
      alookup d u = some (some m) ∧
      ∀ z ∈ q, ∀ x : ℚ, alookup d z = some (some x) → m ≤ x) := by
  have h0 : MinAcc d ((none : Option ℚ), (none : Option String)) [] :=
    Or.inl ⟨rfl, rfl, fun z hz => absurd hz (List.not_mem_nil z)⟩
  have h := minAcc_foldl d q (none, none) [] h0
  rw [List.nil_append] at h
  rcases h with ⟨h1, h2, h3⟩ | ⟨m, u, h1, h2, h3, h4, h5⟩
  · left
    refine ⟨?_, ?_, h3⟩
    · show (match (q.foldl _ ((none : Option ℚ), (none : Option String))).2 with
        | some minNode => ((some minNode : Option String), q.erase minNode)
        | none => (none, ([] : List String))).1 = none
      rw [h2]
    · show (match (q.foldl _ ((none : Option ℚ), (none : Option String))).2 with
        | some minNode => ((some minNode : Option String), q.erase minNode)
        | none => (none, ([] : List String))).2 = []
      rw [h2]
  · right
    refine ⟨u, m, ?_, ?_, h3, h4, h5⟩
    · show (match (q.foldl _ ((none : Option ℚ), (none : Option String))).2 with
        | some minNode => ((some minNode : Option String), q.erase minNode)
        | none => (none, ([] : List String))).1 = some u
      rw [h2]
    · show (match (q.foldl _ ((none : Option ℚ), (none : Option String))).2 with
        | some minNode => ((some minNode : Option String), q.erase minNode)
        | none => (none, ([] : List String))).2 = q.erase u
      rw [h2]


/-! ## Dijkstra: relaxation preserves the invariant -/

theorem relax_eq (g : Graph) (d : DMap) (p : PMap) (u v : String) (yu : ℚ)
    (hdu : alookup d u = some (some yu)) :
    relax g d p u v =
      if jsGT (alookup d v) (some (some (yu + getEdgeWeight g u v))) then
        (aset d v (some (yu + getEdgeWeight g u v)), aset p v u)
      else (d, p) := by
  unfold relax
  rw [hdu]
  rfl

theorem relax_update (g : Graph) (source : String) (hnn : NonnegFrom g source)
    (d : DMap) (p : PMap) (q S : List String) (u v : String) (yu : ℚ)
    (hbase : DijkBase g source d p q S)
    (hu : u ∈ S) (hdu : alookup d u = some (some yu)) (hv : v ∈ adjacent g u)
    (hmax : ∀ u' ∈ S, ∀ y', alookup d u' = some (some y') → y' ≤ yu)
    (hw : 0 ≤ getEdgeWeight g u v) (hyu : 0 ≤ yu)
    (hold : ∀ xv, alookup d v = some (some xv) → yu + getEdgeWeight g u v < xv) :
    DijkBase g source (aset d v (some (yu + getEdgeWeight g u v))) (aset p v u) q S ∧
    (∀ z ∈ S, alookup (aset d v (some (yu + getEdgeWeight g u v))) z = alookup d z) ∧
    (∃ xv, alookup (aset d v (some (yu + getEdgeWeight g u v))) v = some (some xv) ∧
      xv ≤ yu + getEdgeWeight g u v) ∧
    (∀ z x', alookup d z = some (some x') →
      ∃ x'', alookup (aset d v (some (yu + getEdgeWeight g u v))) z = some (some x'') ∧
        x'' ≤ x') := by
  have hvn : v ∈ nodes g := adjacent_mem_nodes g u v hv
  have hvnS : v ∉ S := by
    intro hvS
    rcases hbase.settled_fin v hvS with ⟨y', hy'⟩
    have h1 := hmax v hvS y' hy'
    have h2 := hold y' hy'
    linarith
  have hvq : v ∈ q := by
    by_contra hvq
    exact hvnS ((hbase.s_iff v).mpr ⟨hvn, hvq⟩)
  have hvsrc : v ≠ source := by
    intro he
    subst he
    have := hold 0 hbase.d_src
    linarith
  have huv : u ≠ v := by
    intro he
    subst he
    have := hold yu hdu
    linarith
  have hd'v : alookup (aset d v (some (yu + getEdgeWeight g u v))) v =
      some (some (yu + getEdgeWeight g u v)) := alookup_aset_self _ _ _
  have hd'z : ∀ z, z ≠ v → alookup (aset d v (some (yu + getEdgeWeight g u v))) z =
      alookup d z := fun z hz => alookup_aset_ne _ _ _ _ hz
  have hp'v : alookup (aset p v u) v = some u := alookup_aset_self _ _ _
  have hp'z : ∀ z, z ≠ v → alookup (aset p v u) z = alookup p z :=
    fun z hz => alookup_aset_ne _ _ _ _ hz
  have hSnotv : ∀ z ∈ S, z ≠ v := fun z hz he => hvnS (he ▸ hz)
  refine ⟨⟨hbase.q_sub, hbase.q_nodup, hbase.s_iff, hbase.s_nodup, ?_, ?_, ?_, ?_, ?_,
      ?_, ?_, ?_, ?_⟩, ?_, ?_, ?_⟩
  · intro z
    by_cases hz : z = v
    · subst hz
      rw [hd'v]
      simpa using hvn
    · rw [hd'z z hz]
      exact hbase.d_dom z
  · rw [hd'z source (Ne.symm hvsrc)]
    exact hbase.d_src
  · rw [hp'z source (Ne.symm hvsrc)]
    exact hbase.p_src
  · intro z x hz
    by_cases hzv : z = v
    · subst hzv
      rw [hd'v] at hz
      cases hz
      rcases hbase.sound u yu hdu with ⟨l, hl, hwl⟩
      rcases route_snoc g source l u hl z hv with ⟨hroute, hweight⟩
      exact ⟨l ++ [z], hroute, by rw [hweight, hwl]⟩
    · rw [hd'z z hzv] at hz
      exact hbase.sound z x hz
  · intro z u' hz
    by_cases hzv : z = v
    · subst hzv
      rw [hp'v] at hz
      cases hz
      refine ⟨hu, hv, yu + getEdgeWeight g u z, yu, hd'v, ?_, rfl⟩
      rw [hd'z u huv]
      exact hdu
    · rw [hp'z z hzv] at hz
      rcases hbase.pred z u' hz with ⟨hu', hedge, x, y, hdz, hdu', heq⟩
      exact ⟨hu', hedge, x, y, by rw [hd'z z hzv]; exact hdz,
        by rw [hd'z u' (hSnotv u' hu')]; exact hdu', heq⟩
  · intro z u' hz
    by_cases hzv : z = v
    · subst hzv
      exact Or.inl hvnS
    · rw [hp'z z hzv] at hz
      exact hbase.pred_order z u' hz
  · intro z x hz hzsrc
    by_cases hzv : z = v
    · subst hzv
      rw [hp'v]
      rfl
    · rw [hd'z z hzv] at hz
      rw [hp'z z hzv]
      exact hbase.no_orphan z x hz hzsrc
  · intro z hz
    rcases hbase.settled_fin z hz with ⟨y, hy⟩
    exact ⟨y, by rw [hd'z z (hSnotv z hz)]; exact hy⟩
  · intro u' hu' z hz y x hy hx
    rw [hd'z u' (hSnotv u' hu')] at hy
    by_cases hzv : z = v
    · subst hzv
      rw [hd'v] at hx
      cases hx
      have h1 := hmax u' hu' y hy
      linarith
    · rw [hd'z z hzv] at hx
      exact hbase.order u' hu' z hz y x hy hx
  · intro z hz
    exact hd'z z (hSnotv z hz)
  · exact ⟨yu + getEdgeWeight g u v, hd'v, le_refl _⟩
  · intro z x' hz
    by_cases hzv : z = v
    · subst hzv
      exact ⟨yu + getEdgeWeight g u z, hd'v, le_of_lt (hold x' hz)⟩
    · exact ⟨x', by rw [hd'z z hzv]; exact hz, le_refl _⟩


theorem relax_step (g : Graph) (source : String) (hnn : NonnegFrom g source)
    (d : DMap) (p : PMap) (q S : List String) (u v : String) (yu : ℚ)
    (hbase : DijkBase g source d p q S)
    (hu : u ∈ S) (hdu : alookup d u = some (some yu)) (hv : v ∈ adjacent g u)
    (hmax : ∀ u' ∈ S, ∀ y', alookup d u' = some (some y') → y' ≤ yu) :
    DijkBase g source (relax g d p u v).1 (relax g d p u v).2 q S ∧
    (∀ z ∈ S, alookup (relax g d p u v).1 z = alookup d z) ∧
    (∃ xv, alookup (relax g d p u v).1 v = some (some xv) ∧
      xv ≤ yu + getEdgeWeight g u v) ∧
    (∀ z x', alookup d z = some (some x') →
      ∃ x'', alookup (relax g d p u v).1 z = some (some x'') ∧ x'' ≤ x') := by
  have hw : 0 ≤ getEdgeWeight g u v := by
    rcases hbase.sound u yu hdu with ⟨l, hl, _⟩
    exact hnn u v (route_reaches g source l u hl) hv
  have hyu : 0 ≤ yu := by
    rcases hbase.sound u yu hdu with ⟨l, hl, hwl⟩
    have h0 := route_nonneg g source hnn source l u hl Relation.ReflTransGen.refl
    rw [hwl] at h0
    exact h0
  rw [relax_eq g d p u v yu hdu]
  cases hdv : alookup d v with
  | none =>
    exfalso
    have hde := (hbase.d_dom v).mpr (adjacent_mem_nodes g u v hv)
    rw [hdv] at hde
    simp at hde
  | some o =>
    cases o with
    | none =>
      rw [if_pos (show jsGT (some none) (some (some (yu + getEdgeWeight g u v))) = true
          from rfl)]
      exact relax_update g source hnn d p q S u v yu hbase hu hdu hv hmax hw hyu
        (fun xv hxv => by rw [hdv] at hxv; simp at hxv)
    | some xv =>
      by_cases hlt : yu + getEdgeWeight g u v < xv
      · rw [if_pos (show jsGT (some (some xv))
            (some (some (yu + getEdgeWeight g u v))) = true by simp [jsGT, hlt])]
        refine relax_update g source hnn d p q S u v yu hbase hu hdu hv hmax hw hyu ?_
        intro xv' hxv'
        rw [hdv] at hxv'
        have h2 : xv = xv' := by simpa using hxv'
        rw [← h2]
        exact hlt
      · rw [if_neg (show ¬ jsGT (some (some xv))
            (some (some (yu + getEdgeWeight g u v))) = true by simp [jsGT, hlt])]
        exact ⟨hbase, fun z _ => rfl, ⟨xv, hdv, le_of_not_lt hlt⟩,
          fun z x' hz => ⟨x', hz, le_refl _⟩⟩

theorem relax_fold (g : Graph) (source : String) (hnn : NonnegFrom g source) :
    ∀ (todo : List String) (d : DMap) (p : PMap) (q S : List String) (u : String) (yu : ℚ),
      (∀ v ∈ todo, v ∈ adjacent g u) → u ∈ S → alookup d u = some (some yu) →
      (∀ u' ∈ S, ∀ y', alookup d u' = some (some y') → y' ≤ yu) →
      DijkBase g source d p q S →
      DijkBase g source
        (todo.foldl (fun (dp : DMap × PMap) v => relax g dp.1 dp.2 u v) (d, p)).1
        (todo.foldl (fun (dp : DMap × PMap) v => relax g dp.1 dp.2 u v) (d, p)).2 q S ∧
      (∀ z ∈ S,
        alookup (todo.foldl (fun (dp : DMap × PMap) v => relax g dp.1 dp.2 u v) (d, p)).1 z =
          alookup d z) ∧
      (∀ v ∈ todo, ∃ xv,
        alookup (todo.foldl (fun (dp : DMap × PMap) v => relax g dp.1 dp.2 u v) (d, p)).1 v =
          some (some xv) ∧ xv ≤ yu + getEdgeWeight g u v) ∧
      (∀ z x', alookup d z = some (some x') → ∃ x'',
        alookup (todo.foldl (fun (dp : DMap × PMap) v => relax g dp.1 dp.2 u v) (d, p)).1 z =
          some (some x'') ∧ x'' ≤ x') := by
  intro todo
  induction todo with
  | nil =>
    intro d p q S u yu _ _ _ _ hbase
    exact ⟨hbase, fun z _ => rfl, fun v hv => absurd hv (List.not_mem_nil v),
      fun z x' hz => ⟨x', hz, le_refl _⟩⟩
  | cons v todo ih =>
    intro d p q S u yu hadj hu hdu hmax hbase
    rw [List.foldl_cons]
    rcases relax_step g source hnn d p q S u v yu hbase hu hdu
      (hadj v (List.mem_cons_self _ _)) hmax with ⟨hbase1, hfroz1, hc3v, hc41⟩
    have hdu1 : alookup (relax g d p u v).1 u = some (some yu) := by
      rw [hfroz1 u hu]
      exact hdu
    have hmax1 : ∀ u' ∈ S, ∀ y', alookup (relax g d p u v).1 u' = some (some y') →
        y' ≤ yu := by
      intro u' hu' y' hy'
      rw [hfroz1 u' hu'] at hy'
      exact hmax u' hu' y' hy'
    rcases ih (relax g d p u v).1 (relax g d p u v).2 q S u yu
      (fun v' hv' => hadj v' (List.mem_cons_of_mem _ hv')) hu hdu1 hmax1 hbase1
      with ⟨hbaseF, hfrozF, hc3F, hc4F⟩
    refine ⟨hbaseF, ?_, ?_, ?_⟩
    · intro z hz
      rw [hfrozF z hz, hfroz1 z hz]
    · intro v' hv'
      rcases List.mem_cons.mp hv' with rfl | hv'
      · rcases hc3v with ⟨xv, hxv, hxvle⟩
        rcases hc4F v' xv hxv with ⟨x'', hx'', hx''le⟩
        exact ⟨x'', hx'', le_trans hx''le hxvle⟩
      · exact hc3F v' hv'
    · intro z x' hz
      rcases hc41 z x' hz with ⟨x1, hx1, hx1le⟩
      rcases hc4F z x1 hx1 with ⟨x2, hx2, hx2le⟩
      exact ⟨x2, hx2, le_trans hx2le hx1le⟩


/-! ## Dijkstra: extraction and the main loop -/

theorem extraction_step (g : Graph) (source : String)
    (d : DMap) (p : PMap) (q S : List String) (u : String) (yu : ℚ)
    (hbase : DijkBase g source d p q S)
    (huq : u ∈ q) (hdu : alookup d u = some (some yu))
    (hmin : ∀ z ∈ q, ∀ x : ℚ, alookup d z = some (some x) → yu ≤ x) :
    DijkBase g source d p (q.erase u) (S ++ [u]) ∧
    (∀ u' ∈ S ++ [u], ∀ y', alookup d u' = some (some y') → y' ≤ yu) := by
  have huS : u ∉ S := by
    intro hc
    exact ((hbase.s_iff u).mp hc).2 huq
  have herase : ∀ x, x ∈ q.erase u ↔ x ≠ u ∧ x ∈ q :=
    fun x => hbase.q_nodup.mem_erase_iff
  constructor
  · refine ⟨?_, hbase.q_nodup.erase u, ?_, ?_, hbase.d_dom, hbase.d_src, hbase.p_src,
      hbase.sound, ?_, ?_, hbase.no_orphan, ?_, ?_⟩
    · exact fun x hx => hbase.q_sub x (List.mem_of_mem_erase hx)
    · intro x
      constructor
      · intro hx
        rcases List.mem_append.mp hx with hx | hx
        · rcases (hbase.s_iff x).mp hx with ⟨hxn, hxq⟩
          exact ⟨hxn, fun hc => hxq (List.mem_of_mem_erase hc)⟩
        · rw [List.mem_singleton] at hx
          subst hx
          refine ⟨hbase.q_sub x huq, ?_⟩
          intro hc
          exact ((herase x).mp hc).1 rfl
      · rintro ⟨hxn, hxe⟩
        by_cases hxq : x ∈ q
        · have hxu : x = u := by
            by_contra hxu
            exact hxe ((herase x).mpr ⟨hxu, hxq⟩)
          subst hxu
          exact List.mem_append.mpr (Or.inr (List.mem_singleton_self x))
        · exact List.mem_append.mpr (Or.inl ((hbase.s_iff x).mpr ⟨hxn, hxq⟩))
    · rw [List.nodup_append]
      exact ⟨hbase.s_nodup, List.nodup_singleton u,
        fun x hx hx' => huS ((List.mem_singleton.mp hx') ▸ hx)⟩
    · intro v' u'' hp
      rcases hbase.pred v' u'' hp with ⟨hu'', hedge, hrest⟩
      exact ⟨List.mem_append.mpr (Or.inl hu''), hedge, hrest⟩
    · intro v' u'' hp
      rcases hbase.pred v' u'' hp with ⟨hu'', _, _⟩
      have hidxu'' : (S ++ [u]).indexOf u'' = S.indexOf u'' :=
        List.indexOf_append_of_mem hu''
      by_cases hv'S : v' ∈ S
      · have hord := (hbase.pred_order v' u'' hp).resolve_left (by simpa using hv'S)
        refine Or.inr ?_
        rw [hidxu'', List.indexOf_append_of_mem hv'S]
        exact hord
      · by_cases hv'u : v' = u
        · subst hv'u
          refine Or.inr ?_
          rw [hidxu'', List.indexOf_append_of_not_mem huS]
          have h1 : S.indexOf u'' < S.length := List.indexOf_lt_length.mpr hu''
          have h2 : List.indexOf v' [v'] = 0 := by simp
          rw [h2]
          omega
        · refine Or.inl ?_
          intro hc
          rcases List.mem_append.mp hc with hc | hc
          · exact hv'S hc
          · exact hv'u (List.mem_singleton.mp hc)
    · intro z hz
      rcases List.mem_append.mp hz with hz | hz
      · exact hbase.settled_fin z hz
      · rw [List.mem_singleton] at hz
        subst hz
        exact ⟨yu, hdu⟩
    · intro u' hu' z hz y x hy hx
      rcases List.mem_append.mp hu' with hu' | hu'
      · exact hbase.order u' hu' z (List.mem_of_mem_erase hz) y x hy hx
      · rw [List.mem_singleton] at hu'
        subst hu'
        have hyu' : y = yu := by
          rw [hdu] at hy
          simpa using hy.symm
        rw [hyu']
        exact hmin z (List.mem_of_mem_erase hz) x hx
  · intro u' hu' y' hy'
    rcases List.mem_append.mp hu' with hu' | hu'
    · exact hbase.order u' hu' u huq y' yu hy' hdu
    · rw [List.mem_singleton] at hu'
      subst hu'
      rw [hdu] at hy'
      have : yu = y' := by simpa using hy'
      rw [← this]

theorem dijkstraLoop_succ (g : Graph) (fuel : Nat) (d : DMap) (p : PMap)
    (q : List String) :
    dijkstraLoop g (fuel + 1) d p q =
      if q.isEmpty then (d, p)
      else
        match extractMin d q with
        | (none, _) => (d, p)
        | (some u, q') =>
          let dp := (adjacent g u).foldl (fun (dp : DMap × PMap) v =>
            relax g dp.1 dp.2 u v) (d, p)
          dijkstraLoop g fuel dp.1 dp.2 q' := rfl

theorem dijkstraLoop_spec (g : Graph) (source : String) (hnn : NonnegFrom g source) :
    ∀ (fuel : Nat) (d : DMap) (p : PMap) (q S : List String),
      q.length ≤ fuel →
      DijkBase g source d p q S → DijkRelaxed g d S →
      ∃ q' S',
        DijkBase g source (dijkstraLoop g fuel d p q).1 (dijkstraLoop g fuel d p q).2
          q' S' ∧
        DijkRelaxed g (dijkstraLoop g fuel d p q).1 S' ∧
        (q' = [] ∨ ∀ z ∈ q', alookup (dijkstraLoop g fuel d p q).1 z = some none) := by
  intro fuel
  induction fuel with
  | zero =>
    intro d p q S hlen hbase hrel
    have hq : q = [] := List.eq_nil_of_length_eq_zero (Nat.le_zero.mp hlen)
    exact ⟨q, S, hbase, hrel, Or.inl hq⟩
  | succ fuel ih =>
    intro d p q S hlen hbase hrel
    rw [dijkstraLoop_succ]
    by_cases hqe : q.isEmpty
    · rw [if_pos hqe]
      exact ⟨q, S, hbase, hrel, Or.inl (List.isEmpty_iff.mp hqe)⟩
    · rw [if_neg hqe]
      rcases extractMin_spec d q with ⟨h1, h2, h3⟩ | ⟨u, m, h1, h2, h3, h4, h5⟩
      · have hx : extractMin d q = (none, []) := by
          rw [← h1, ← h2]
        rw [hx]
        refine ⟨q, S, hbase, hrel, Or.inr ?_⟩
        intro z hz
        have hzn : z ∈ nodes g := hbase.q_sub z hz
        have hsome := (hbase.d_dom z).mpr hzn
        cases hdz : alookup d z with
        | none => rw [hdz] at hsome; simp at hsome
        | some o =>
          cases o with
          | none => rfl
          | some x => exact absurd hdz (h3 z hz x)
      · have hx : extractMin d q = (some u, q.erase u) := by
          rw [← h1, ← h2]
        rw [hx]
        simp only []
        rcases extraction_step g source d p q S u m hbase h3 h4 h5
          with ⟨hbase1, hmax1⟩
        have huS1 : u ∈ S ++ [u] := List.mem_append.mpr (Or.inr (List.mem_singleton_self u))
        rcases relax_fold g source hnn (adjacent g u) d p (q.erase u) (S ++ [u]) u m
          (fun v hv => hv) huS1 h4 hmax1 hbase1
          with ⟨hbaseF, hfrozF, hc3F, hc4F⟩
        have hrelF : DijkRelaxed g
            ((adjacent g u).foldl (fun (dp : DMap × PMap) v => relax g dp.1 dp.2 u v)
              (d, p)).1 (S ++ [u]) := by
          intro u' hu' v hv y hy
          rcases List.mem_append.mp hu' with hu' | hu'
          · have hfz := hfrozF u' (List.mem_append.mpr (Or.inl hu'))
            rw [hfz] at hy
            rcases hrel u' hu' v hv y hy with ⟨x, hx, hxle⟩
            rcases hc4F v x hx with ⟨x', hx', hx'le⟩
            exact ⟨x', hx', le_trans hx'le hxle⟩
          · rw [List.mem_singleton] at hu'
            subst hu'
            have hfz := hfrozF u' huS1
            rw [hfz, h4] at hy
            have hym : m = y := by simpa using hy
            rcases hc3F v hv with ⟨xv, hxv, hxvle⟩
            exact ⟨xv, hxv, by rw [← hym]; exact hxvle⟩
        have hlen1 : (q.erase u).length ≤ fuel := by
          have hqlen : 0 < q.length := by
            cases q with
            | nil => simp at hqe
            | cons a l => simp
          rw [List.length_erase_of_mem h3]
          omega
        exact ih _ _ (q.erase u) (S ++ [u]) hlen1 hbaseF hrelF


/-! ## Dijkstra: initial state, bounds at termination, path reconstruction -/

theorem alookup_d0 (g : Graph) (source z : String) :
    alookup (aset ((nodes g).map (fun n => (n, (none : Option ℚ)))) source (some 0)) z =
      if z = source then some (some 0)
      else if z ∈ nodes g then some none else none := by
  by_cases h : z = source
  · subst h
    rw [alookup_aset_self, if_pos rfl]
  · rw [alookup_aset_ne _ _ _ _ h, alookup_initD, if_neg h]

theorem dijkstra_init (g : Graph) (source : String) (hs : source ∈ nodes g) :
    DijkBase g source
      (aset ((nodes g).map (fun n => (n, (none : Option ℚ)))) source (some 0))
      [] (nodes g) [] ∧
    DijkRelaxed g
      (aset ((nodes g).map (fun n => (n, (none : Option ℚ)))) source (some 0)) [] := by
  constructor
  · refine ⟨fun x hx => hx, nodes_nodup g, fun x => by simp, List.nodup_nil,
      ?_, ?_, rfl, ?_, ?_, ?_, ?_, ?_, ?_⟩
    · intro v
      rw [alookup_d0]
      by_cases hv : v = source
      · subst hv
        simpa using hs
      · rw [if_neg hv]
        by_cases hvn : v ∈ nodes g
        · simp [hvn]
        · simp [hvn]
    · rw [alookup_d0, if_pos rfl]
    · intro v x hv
      rw [alookup_d0] at hv
      by_cases hvs : v = source
      · subst hvs
        rw [if_pos rfl] at hv
        have hx0 : x = 0 := by simpa using hv.symm
        subst hx0
        exact ⟨[v], Route.refl v, rfl⟩
      · rw [if_neg hvs] at hv
        split at hv <;> simp at hv
    · intro v u hv
      simp [alookup] at hv
    · intro v u hv
      simp [alookup] at hv
    · intro v x hv hvs
      rw [alookup_d0, if_neg hvs] at hv
      split at hv <;> simp at hv
    · intro u hu
      cases hu
    · intro u hu
      cases hu
  · intro u hu
    cases hu

theorem route_last_mem (g : Graph) :
    ∀ (a : String) (l : List String) (c : String), Route g a l c → c ∈ l := by
  intro a l c h
  induction h with
  | refl a => exact List.mem_singleton_self a
  | step a b c l _ _ ih => exact List.mem_cons_of_mem _ ih

/-- The distance map bounds every route whose intermediate nodes are all
settled (the relaxation invariant, telescoped along the route). -/
theorem route_ub (g : Graph) (d : DMap) (S : List String) (hrel : DijkRelaxed g d S) :
    ∀ (a : String) (l : List String) (c : String), Route g a l c →
      (∀ x ∈ l.dropLast, x ∈ S) →
      ∀ ya, alookup d a = some (some ya) →
      ∃ xc, alookup d c = some (some xc) ∧ xc ≤ ya + pathWeight g l := by
  intro a l c h
  induction h with
  | refl a =>
    intro _ ya hya
    refine ⟨ya, hya, ?_⟩
    show ya ≤ ya + (0 : ℚ)
    linarith
  | step a b c l hadj hr ih =>
    intro hS ya hya
    rcases route_head g b c l hr with ⟨t, rfl⟩
    have haS : a ∈ S := hS a (List.mem_cons_self _ _)
    have hnext : ∀ x ∈ (b :: t).dropLast, x ∈ S := by
      intro x hx
      exact hS x (List.mem_cons_of_mem _ hx)
    rcases hrel a haS b hadj ya hya with ⟨yb, hyb, hyble⟩
    rcases ih hnext yb hyb with ⟨xc, hxc, hxcle⟩
    refine ⟨xc, hxc, ?_⟩
    show xc ≤ ya + (getEdgeWeight g a b + pathWeight g (b :: t))
    linarith

/-- At loop exit every node on a route from a settled start is settled. -/
theorem route_in_settled (g : Graph) (source : String) (d : DMap) (p : PMap)
    (q S : List String) (hbase : DijkBase g source d p q S) (hrel : DijkRelaxed g d S)
    (hexit : q = [] ∨ ∀ z ∈ q, alookup d z = some none) :
    ∀ (a : String) (l : List String) (c : String), Route g a l c →
      a ∈ S → ∀ x ∈ l, x ∈ S := by
  intro a l c h
  induction h with
  | refl a =>
    intro ha x hx
    rw [List.mem_singleton] at hx
    subst hx
    exact ha
  | step a b c l hadj hr ih =>
    intro ha x hx
    have hbS : b ∈ S := by
      rcases hbase.settled_fin a ha with ⟨ya, hya⟩
      rcases hrel a ha b hadj ya hya with ⟨xb, hxb, _⟩
      have hbn : b ∈ nodes g := adjacent_mem_nodes g a b hadj
      have hbq : b ∉ q := by
        rcases hexit with rfl | hexit
        · exact List.not_mem_nil b
        · intro hc
          rw [hexit b hc] at hxb
          simp at hxb
      exact (hbase.s_iff b).mpr ⟨hbn, hbq⟩
    rcases List.mem_cons.mp hx with rfl | hx
    · exact ha
    · exact ih hbS x hx

theorem source_settled (g : Graph) (source : String) (d : DMap) (p : PMap)
    (q S : List String) (hbase : DijkBase g source d p q S)
    (hexit : q = [] ∨ ∀ z ∈ q, alookup d z = some none) (hs : source ∈ nodes g) :
    source ∈ S := by
  have hsq : source ∉ q := by
    rcases hexit with rfl | hexit
    · exact List.not_mem_nil source
    · intro hc
      have h2 := hexit source hc
      rw [hbase.d_src] at h2
      simp at h2
  exact (hbase.s_iff source).mpr ⟨hs, hsq⟩

/-- The final distance of the destination bounds every route weight. -/
theorem end_lb (g : Graph) (source : String) (d : DMap) (p : PMap)
    (q S : List String) (hbase : DijkBase g source d p q S) (hrel : DijkRelaxed g d S)
    (hexit : q = [] ∨ ∀ z ∈ q, alookup d z = some none) (hs : source ∈ nodes g) :
    ∀ (l : List String) (v : String), Route g source l v →
      ∃ x, alookup d v = some (some x) ∧ x ≤ pathWeight g l ∧ v ∈ S := by
  intro l v hroute
  have hsrcS := source_settled g source d p q S hbase hexit hs
  have hall := route_in_settled g source d p q S hbase hrel hexit source l v hroute hsrcS
  have hdrop : ∀ x ∈ l.dropLast, x ∈ S := fun x hx => hall x (List.dropLast_subset l hx)
  rcases route_ub g d S hrel source l v hroute hdrop 0 hbase.d_src with ⟨x, hx, hxle⟩
  refine ⟨x, hx, ?_, hall v (route_last_mem g source l v hroute)⟩
  linarith

/-- The predecessor walk from a settled node with finite distance
reconstructs a route from the source of exactly that weight; the
predecessor links point at strictly earlier settled nodes, so the walk
needs fewer steps than the settled index. Because the JS loop condition
tests the predecessor for truthiness, the store must not contain the
empty-string node id, so that no predecessor link is falsy. -/
theorem pathWalk_ok (g : Graph) (source : String) (d : DMap) (p : PMap)
    (q S : List String) (hbase : DijkBase g source d p q S) (hne : "" ∉ nodes g) :
    ∀ (i : Nat) (fuel : Nat) (node : String) (acc : List String) (wacc : ℚ) (xn : ℚ),
      node ∈ S → S.indexOf node = i → alookup d node = some (some xn) → i < fuel →
      ∃ L, pathWalk g p source fuel node acc wacc = .ok ⟨L ++ acc, wacc + xn⟩ ∧
        Route g source L node ∧ pathWeight g L = xn := by
  intro i
  induction i using Nat.strong_induction_on with
  | _ i ihs =>
    intro fuel node acc wacc xn hnS hidx hdn hif
    cases fuel with
    | zero => omega
    | succ fuel =>
      cases hp : alookup p node with
      | none =>
        have hnsrc : node = source := by
          by_contra hne
          have hso := hbase.no_orphan node xn hdn hne
          rw [hp] at hso
          simp at hso
        subst hnsrc
        have hx0 : xn = 0 := by
          have hd2 := hdn
          rw [hbase.d_src] at hd2
          simpa using hd2.symm
        subst hx0
        refine ⟨[node], ?_, Route.refl node, rfl⟩
        rw [pathWalk_eq_none g p node fuel node acc wacc hp, if_pos rfl]
        simp
      | some u =>
        rcases hbase.pred node u hp with ⟨huS, hedge, x, y, hdx, hdy, heq⟩
        have hu : u ≠ "" := fun he => hne (he ▸ ((hbase.s_iff u).mp huS).1)
        have hxn : x = xn := by
          rw [hdn] at hdx
          simpa using hdx.symm
        have hidxlt : S.indexOf u < i := by
          rcases hbase.pred_order node u hp with h1 | h1
          · exact absurd hnS h1
          · rw [hidx] at h1
            exact h1
        rcases ihs (S.indexOf u) hidxlt fuel u (node :: acc)
          (wacc + getEdgeWeight g u node) y huS rfl hdy (by omega)
          with ⟨Lu, hwalk, hrouteu, hwu⟩
        refine ⟨Lu ++ [node], ?_, (route_snoc g source Lu u hrouteu node hedge).1, ?_⟩
        · rw [pathWalk_eq_some g p source fuel node u acc wacc hp, if_neg hu, hwalk]
          have h1 : Lu ++ (node :: acc) = Lu ++ [node] ++ acc := by simp
          have h2 : wacc + getEdgeWeight g u node + y = wacc + xn := by
            rw [← hxn, heq]
            ring
          rw [h1, h2]
        · rw [(route_snoc g source Lu u hrouteu node hedge).2, hwu, ← hxn, heq]

/-- Whenever a route exists (under the preconditions, which include the
absence of the empty-string node id so that no predecessor link is falsy),
`shortestPath` returns a route from `source` to `destination` whose weight
is the minimum over all routes. -/
theorem shortestPath_ok_of_route (g : Graph) (source destination : String)
    (hne : "" ∉ nodes g)
    (hnn : NonnegFrom g source) (hs : source ∈ nodes g) (ht : destination ∈ nodes g)
    (hroute : ∃ l, Route g source l destination) :
    ∃ L W, shortestPath g source destination = .ok ⟨L, W⟩ ∧
      Route g source L destination ∧ pathWeight g L = W ∧
      ∀ l', Route g source l' destination → W ≤ pathWeight g l' := by
  rw [shortestPath_eq_of_mem g source destination hs ht]
  rcases dijkstra_init g source hs with ⟨hbase0, hrel0⟩
  rcases dijkstraLoop_spec g source hnn (nodes g).length
      (aset ((nodes g).map (fun n => (n, (none : Option ℚ)))) source (some 0)) []
      (nodes g) [] (le_refl _) hbase0 hrel0 with ⟨q', S', hbaseF, hrelF, hexit⟩
  rcases hroute with ⟨l0, hl0⟩
  rcases end_lb g source _ _ q' S' hbaseF hrelF hexit hs l0 destination hl0
    with ⟨x, hx, hxle0, hdestS⟩
  have hmin : ∀ l', Route g source l' destination → x ≤ pathWeight g l' := by
    intro l' hl'
    rcases end_lb g source _ _ q' S' hbaseF hrelF hexit hs l' destination hl'
      with ⟨x2, hx2, hx2le, _⟩
    have hx2x : x2 = x := by
      rw [hx] at hx2
      simpa using hx2.symm
    rw [← hx2x]
    exact hx2le
  have hidx : S'.indexOf destination < (nodes g).length + 1 := by
    have h1 : S'.indexOf destination < S'.length := List.indexOf_lt_length.mpr hdestS
    have h2 : S'.length ≤ (nodes g).length :=
      (List.subperm_of_subset hbaseF.s_nodup
        (fun x hx2 => ((hbaseF.s_iff x).mp hx2).1)).length_le
    omega
  rcases pathWalk_ok g source _ _ q' S' hbaseF hne (S'.indexOf destination)
      ((nodes g).length + 1) destination [] 0 x hdestS rfl hx hidx
    with ⟨L, hwalk, hrouteL, hwL⟩
  refine ⟨L, x, ?_, hrouteL, hwL, hmin⟩
  show pathWalk g
    (dijkstraLoop g (nodes g).length
      (aset ((nodes g).map (fun n => (n, (none : Option ℚ)))) source (some 0)) []
      (nodes g)).2 source ((nodes g).length + 1) destination [] 0 = .ok ⟨L, x⟩
  rw [hwalk]
  simp

/-- When no route exists (under the precondition), the predecessor walk
fails immediately at the unreached destination. -/
theorem shortestPath_noPath_of_no_route (g : Graph) (source destination : String)
    (hnn : NonnegFrom g source) (hs : source ∈ nodes g) (ht : destination ∈ nodes g)
    (hnoroute : ¬∃ l, Route g source l destination) :
    shortestPath g source destination = .error .noPath := by
  rw [shortestPath_eq_of_mem g source destination hs ht]
  rcases dijkstra_init g source hs with ⟨hbase0, hrel0⟩
  rcases dijkstraLoop_spec g source hnn (nodes g).length
      (aset ((nodes g).map (fun n => (n, (none : Option ℚ)))) source (some 0)) []
      (nodes g) [] (le_refl _) hbase0 hrel0 with ⟨q', S', hbaseF, hrelF, hexit⟩
  have hdinf : alookup (dijkstraLoop g (nodes g).length
      (aset ((nodes g).map (fun n => (n, (none : Option ℚ)))) source (some 0)) []
      (nodes g)).1 destination = some none := by
    have hsome := (hbaseF.d_dom destination).mpr ht
    cases hd : alookup (dijkstraLoop g (nodes g).length
        (aset ((nodes g).map (fun n => (n, (none : Option ℚ)))) source (some 0)) []
        (nodes g)).1 destination with
    | none => rw [hd] at hsome; simp at hsome
    | some o =>
      cases o with
      | none => rfl
      | some x =>
        rcases hbaseF.sound destination x hd with ⟨l, hl, _⟩
        exact absurd ⟨l, hl⟩ hnoroute
  have hpnone : alookup (dijkstraLoop g (nodes g).length
      (aset ((nodes g).map (fun n => (n, (none : Option ℚ)))) source (some 0)) []
      (nodes g)).2 destination = none := by
    cases hp : alookup (dijkstraLoop g (nodes g).length
        (aset ((nodes g).map (fun n => (n, (none : Option ℚ)))) source (some 0)) []
        (nodes g)).2 destination with
    | none => rfl
    | some u =>
      rcases hbaseF.pred destination u hp with ⟨_, _, x, y, hdx, _, _⟩
      rw [hdinf] at hdx
      simp at hdx
  have hne : destination ≠ source := by
    intro he
    subst he
    exact hnoroute ⟨[destination], Route.refl destination⟩
  show pathWalk g
    (dijkstraLoop g (nodes g).length
      (aset ((nodes g).map (fun n => (n, (none : Option ℚ)))) source (some 0)) []
      (nodes g)).2 source ((nodes g).length + 1) destination [] 0 = .error .noPath
  rw [pathWalk_eq_none g _ source (nodes g).length destination [] 0 hpnone, if_neg hne]

theorem exampleGraph_weight (u v : String) : getEdgeWeight exampleGraph u v = 1 := rfl

theorem exampleGraph_route_nonneg :
    ∀ (a : String) (l : List String) (c : String), Route exampleGraph a l c →
      0 ≤ pathWeight exampleGraph l := by
  intro a l c h
  induction h with
  | refl a => exact le_of_eq rfl
  | step a b c l hadj hr ih =>
    rcases route_head exampleGraph b c l hr with ⟨t, rfl⟩
    show 0 ≤ getEdgeWeight exampleGraph a b + pathWeight exampleGraph (b :: t)
    rw [exampleGraph_weight]
    linarith

theorem exampleGraph_route_pos (a : String) (l : List String) (c : String)
    (h : Route exampleGraph a l c) (hne : a ≠ c) : 1 ≤ pathWeight exampleGraph l := by
  cases h with
  | refl => exact absurd rfl hne
  | step a b c l hadj hr =>
    rcases route_head exampleGraph b c l hr with ⟨t, rfl⟩
    show 1 ≤ getEdgeWeight exampleGraph a b + pathWeight exampleGraph (b :: t)
    rw [exampleGraph_weight]
    have hnn := exampleGraph_route_nonneg b (b :: t) c hr
    linarith

theorem route_no_out (g : Graph) (a : String) (l : List String) (c : String)
    (h : Route g a l c) (hemp : adjacent g a = []) : l = [a] ∧ c = a := by
  cases h with
  | refl => exact ⟨rfl, rfl⟩
  | step a b c l hadj hr =>
    rw [hemp] at hadj
    cases hadj

/-- In the example store a route from A to C of weight at most 1 is the
direct edge. -/
theorem exampleGraph_route_char (a : String) (l : List String) (c : String)
    (h : Route exampleGraph a l c) (h1 : a = "A") (h2 : c = "C")
    (hw : pathWeight exampleGraph l ≤ 1) : l = ["A", "C"] := by
  cases h with
  | refl a0 =>
    rw [h1] at h2
    exact absurd h2 (by decide)
  | step a0 b c0 l0 hadj hr =>
    subst h1
    subst h2
    rcases route_head exampleGraph b "C" l0 hr with ⟨t, rfl⟩
    have he : adjacent exampleGraph "A" = ["B", "C"] := rfl
    rw [he] at hadj
    have h3 : pathWeight exampleGraph ("A" :: b :: t) =
        1 + pathWeight exampleGraph (b :: t) := by
      show getEdgeWeight exampleGraph "A" b + pathWeight exampleGraph (b :: t) = _
      rw [exampleGraph_weight]
    rw [h3] at hw
    have hw2 : pathWeight exampleGraph (b :: t) ≤ 0 := by linarith
    rcases List.mem_cons.mp hadj with rfl | hb
    · have hpos := exampleGraph_route_pos "B" ("B" :: t) "C" hr (by decide)
      linarith
    · have hb2 : b = "C" := by simpa using hb
      subst hb2
      have hzero := route_no_out exampleGraph "C" ("C" :: t) "C" hr rfl
      have ht : t = [] := by simpa using hzero.1
      subst ht
      rfl

theorem emptyIdGraph_weight (u v : String) : getEdgeWeight emptyIdGraph u v = 1 := rfl

/-- On the store whose only edge is ""→"B", the predecessor of "B" after
the loop is the empty string, which the JS walk condition treats as falsy:
the walk stops at "B", which differs from the source, and throws. -/
theorem shortestPath_emptyIdGraph_eq :
    shortestPath emptyIdGraph "" "B" = .error .noPath := by
  have hs : "" ∈ nodes emptyIdGraph := by decide
  have ht : "B" ∈ nodes emptyIdGraph := by decide
  have hnn : NonnegFrom emptyIdGraph "" := by
    intro u v _ _
    rw [emptyIdGraph_weight]
    norm_num
  rw [shortestPath_eq_of_mem emptyIdGraph "" "B" hs ht]
  rcases dijkstra_init emptyIdGraph "" hs with ⟨hbase0, hrel0⟩
  rcases dijkstraLoop_spec emptyIdGraph "" hnn (nodes emptyIdGraph).length
      (aset ((nodes emptyIdGraph).map (fun n => (n, (none : Option ℚ)))) "" (some 0)) []
      (nodes emptyIdGraph) [] (le_refl _) hbase0 hrel0 with ⟨q', S', hbaseF, hrelF, hexit⟩
  have hroute : Route emptyIdGraph "" ["", "B"] "B" :=
    Route.step "" "B" "B" ["B"] (by decide) (Route.refl "B")
  rcases end_lb emptyIdGraph "" _ _ q' S' hbaseF hrelF hexit hs ["", "B"] "B" hroute
    with ⟨x, hx, _, _⟩
  have hBneq : ("B" : String) ≠ "" := by decide
  have hps := hbaseF.no_orphan "B" x hx hBneq
  cases hp : alookup (dijkstraLoop emptyIdGraph (nodes emptyIdGraph).length
      (aset ((nodes emptyIdGraph).map (fun n => (n, (none : Option ℚ)))) "" (some 0)) []
      (nodes emptyIdGraph)).2 "B" with
  | none =>
    rw [hp] at hps
    simp at hps
  | some u =>
    rcases hbaseF.pred "B" u hp with ⟨huS, hadj, _⟩
    have hu : u = "" := by
      have hun : u ∈ nodes emptyIdGraph := ((hbaseF.s_iff u).mp huS).1
      have hn : nodes emptyIdGraph = ["", "B"] := rfl
      rw [hn] at hun
      rcases List.mem_cons.mp hun with rfl | hu2
      · rfl
      · have hu3 : u = "B" := by simpa using hu2
        subst hu3
        have ha : adjacent emptyIdGraph "B" = [] := rfl
        rw [ha] at hadj
        cases hadj
    subst hu
    show pathWalk emptyIdGraph
      (dijkstraLoop emptyIdGraph (nodes emptyIdGraph).length
        (aset ((nodes emptyIdGraph).map (fun n => (n, (none : Option ℚ)))) "" (some 0)) []
        (nodes emptyIdGraph)).2 "" ((nodes emptyIdGraph).length + 1) "B" [] 0 =
      .error .noPath
    rw [pathWalk_eq_some emptyIdGraph _ "" (nodes emptyIdGraph).length "B" "" [] 0 hp,
      if_pos rfl, if_neg hBneq]

/-- C1 counterexample: on the store whose only edge is ""→"B" the original
claim's hypotheses hold — every weight is 1, both ids are members of the
derived node set, and a route exists — yet `shortestPath("", "B")` throws
NoPathError instead of returning the minimal path, because the predecessor
of "B" is the empty string and the JS walk condition `while(p[node])`
treats it as falsy. -/
theorem shortestPath_empty_id_counterexample :
    NonnegFrom emptyIdGraph "" ∧ "" ∈ nodes emptyIdGraph ∧ "B" ∈ nodes emptyIdGraph ∧
    (∃ l, Route emptyIdGraph "" l "B") ∧
    ¬∃ L W, shortestPath emptyIdGraph "" "B" = .ok ⟨L, W⟩ := by
  refine ⟨?_, by decide, by decide,
    ⟨["", "B"], Route.step "" "B" "B" ["B"] (by decide) (Route.refl "B")⟩, ?_⟩
  · intro u v _ _
    rw [emptyIdGraph_weight]
    norm_num
  · rintro ⟨L, W, hok⟩
    rw [shortestPath_emptyIdGraph_eq] at hok
    simp at hok

/-- C1 (amended): under non-negative reachable weights, for member nodes
with at least one route between them, and provided the empty-string id is
not a node of the graph (the JS walk tests each predecessor string for
truthiness, so a falsy empty-string predecessor stops it early),
`shortestPath` returns a node sequence from `source` to `destination`
following edges of the graph whose accumulated weight is the minimum route
weight (default weight 1 for unset pairs); in particular, on the graph
A→B, B→C, A→C with all weights 1 it returns `["A", "C"]` with weight 1. -/
theorem shortestPath_correct :
    (∀ (g : Graph) (source destination : String),
      "" ∉ nodes g →
      NonnegFrom g source → source ∈ nodes g → destination ∈ nodes g →
      (∃ l, Route g source l destination) →
      ∃ L W, shortestPath g source destination = .ok ⟨L, W⟩ ∧
        Route g source L destination ∧ pathWeight g L = W ∧
        ∀ l', Route g source l' destination → W ≤ pathWeight g l') ∧
    shortestPath exampleGraph "A" "C" = .ok ⟨["A", "C"], 1⟩ := by
  refine ⟨shortestPath_ok_of_route, ?_⟩
  have hnn : NonnegFrom exampleGraph "A" := by
    intro u v _ _
    rw [exampleGraph_weight]
    norm_num
  have hroute : Route exampleGraph "A" ["A", "C"] "C" :=
    Route.step "A" "C" "C" ["C"] (by decide) (Route.refl "C")
  rcases shortestPath_ok_of_route exampleGraph "A" "C" (by decide) hnn (by decide)
      (by decide) ⟨["A", "C"], hroute⟩ with ⟨L, W, hok, hrL, hpw, hmin⟩
  have hW1 : pathWeight exampleGraph ["A", "C"] = 1 := by
    show getEdgeWeight exampleGraph "A" "C" + 0 = 1
    rw [exampleGraph_weight]
    norm_num
  have hWle : W ≤ 1 := by
    have hm := hmin ["A", "C"] hroute
    rw [hW1] at hm
    exact hm
  have hL : L = ["A", "C"] := by
    refine exampleGraph_route_char "A" L "C" hrL rfl rfl ?_
    rw [hpw]
    exact hWle
  have hWeq : W = 1 := by rw [← hpw, hL, hW1]
  rw [hok, hL, hWeq]

theorem shortestPath_correct_witness :
    ("" ∉ nodes exampleGraph) ∧ NonnegFrom exampleGraph "A" ∧
    (∃ L W, shortestPath exampleGraph "A" "C" = .ok ⟨L, W⟩ ∧
      Route exampleGraph "A" L "C" ∧ pathWeight exampleGraph L = W ∧
      ∀ l', Route exampleGraph "A" l' "C" → W ≤ pathWeight exampleGraph l') := by
  have hnn : NonnegFrom exampleGraph "A" := by
    intro u v _ _
    have h1 : getEdgeWeight exampleGraph u v = 1 := rfl
    rw [h1]
    norm_num
  exact ⟨by decide, hnn,
    shortestPath_correct.1 exampleGraph "A" "C" (by decide) hnn (by decide) (by decide)
      ⟨["A", "C"], Route.step "A" "C" "C" ["C"] (by decide) (Route.refl "C")⟩⟩

/-- C5 counterexample: on the store whose only edge is ""→"B", with
non-negative weights and member endpoints, `shortestPath("", "B")` throws
NoPathError although a route from "" to "B" exists, refuting the original
iff: the walk stops on the falsy empty-string predecessor before reaching
the source. -/
theorem shortestPath_noPath_despite_route :
    NonnegFrom emptyIdGraph "" ∧ "" ∈ nodes emptyIdGraph ∧ "B" ∈ nodes emptyIdGraph ∧
    shortestPath emptyIdGraph "" "B" = .error .noPath ∧
    (∃ l, Route emptyIdGraph "" l "B") := by
  refine ⟨?_, by decide, by decide, shortestPath_emptyIdGraph_eq,
    ⟨["", "B"], Route.step "" "B" "B" ["B"] (by decide) (Route.refl "B")⟩⟩
  intro u v _ _
  rw [emptyIdGraph_weight]
  norm_num

/-- C5 (amended): under non-negative reachable weights, member endpoints,
and the absence of the empty-string node id (whose falsy predecessor links
stop the JS walk early), `shortestPath` throws `NoPathError` exactly when
no route exists from `source` to `destination`; when a route exists the
predecessor walk terminates at `source` and a path is returned instead. -/
theorem shortestPath_noPath_iff (g : Graph) (source destination : String)
    (hne : "" ∉ nodes g)
    (hnn : NonnegFrom g source) (hs : source ∈ nodes g) (ht : destination ∈ nodes g) :
    shortestPath g source destination = .error .noPath ↔
      ¬∃ l, Route g source l destination := by
  constructor
  · intro herr hroute
    rcases shortestPath_ok_of_route g source destination hne hnn hs ht hroute
      with ⟨L, W, hok, _⟩
    rw [hok] at herr
    simp at herr
  · exact shortestPath_noPath_of_no_route g source destination hnn hs ht

theorem shortestPath_noPath_iff_witness :
    shortestPath twoComponentGraph "A" "D" = .error .noPath := by
  have hnn : NonnegFrom twoComponentGraph "A" := by
    intro u v _ _
    have h1 : getEdgeWeight twoComponentGraph u v = 1 := rfl
    rw [h1]
    norm_num
  have hnr : ¬∃ l, Route twoComponentGraph "A" l "D" := by
    rintro ⟨l, hl⟩
    have hreach := route_reaches twoComponentGraph "A" l "D" hl
    have hcl : ∀ a ∈ (["A", "B"] : List String), ∀ b ∈ adjacent twoComponentGraph a,
        b ∈ (["A", "B"] : List String) := by
      intro a ha
      fin_cases ha
      · intro b hb
        have he : adjacent twoComponentGraph "A" = ["B"] := rfl
        rw [he] at hb
        fin_cases hb
        decide
      · intro b hb
        have he : adjacent twoComponentGraph "B" = [] := rfl
        rw [he] at hb
        cases hb
    have hmem := mem_of_reaches_closed twoComponentGraph ["A", "B"] hcl "A" "D" hreach
      (by decide)
    exact absurd hmem (by decide)
  exact (shortestPath_noPath_iff twoComponentGraph "A" "D" (by decide) hnn (by decide)
    (by decide)).mpr hnr

end GraphDS
